import Mathlib

/-!
Verification development for the two-cycle TSP local-search engine
(repository `imo-1`).  The Rust sources under `src/` are embedded
shallowly: vectors become `List Nat`, `i32` cost values become `Int`,
fallible operations become `Option`/`Except`, and the distance oracle is
passed as an explicit function argument.
-/

namespace TwoCycle

/-- CycleId from `src/moves/types.rs`: which of the two cycles a vertex
belongs to. -/
inductive CycleId
  | Cycle1
  | Cycle2
deriving DecidableEq, Repr

/-- Move from `src/moves/types.rs`.  Per the source declaration the fields
are node ids: `InterRouteExchange { v1, v2 }` exchanges nodes `v1`
(originally from cycle1) and `v2` (originally from cycle2);
`IntraRouteVertexExchange { v1, v2, cycle }` exchanges nodes `v1` and `v2`
inside `cycle`; `IntraRouteEdgeExchange { a, b, c, d, cycle }` removes the
directed edges `(a, b)` and `(c, d)`. -/
inductive Move
  | InterRouteExchange (v1 v2 : Nat)
  | IntraRouteVertexExchange (v1 v2 : Nat) (cycle : CycleId)
  | IntraRouteEdgeExchange (a b c d : Nat) (cycle : CycleId)
deriving DecidableEq, Repr

/-- EvaluatedMove from `src/moves/types.rs`: a move together with its
predicted signed cost change. -/
structure EvaluatedMove where
  move_type : Move
  delta : Int
deriving DecidableEq, Repr

/-- Solution from `src/tsplib.rs`: the two node cycles. -/
structure Solution where
  cycle1 : List Nat
  cycle2 : List Nat
deriving DecidableEq, Repr

/-- Body of `Solution::calculate_cycle_cost` (`src/tsplib.rs`): the sum of
`distance(cycle[i], cycle[(i+1) % len])` over all indices `i`. -/
def calculate_cycle_cost (dist : Nat → Nat → Int) (cycle : List Nat) : Int :=
  if cycle.isEmpty then 0
  else ((List.range cycle.length).map (fun i =>
    dist (cycle.getD i 0) (cycle.getD ((i + 1) % cycle.length) 0))).sum

/-- `Solution::calculate_cost` from `src/tsplib.rs`. -/
def Solution.calculate_cost (s : Solution) (dist : Nat → Nat → Int) : Int :=
  calculate_cycle_cost dist s.cycle1 + calculate_cycle_cost dist s.cycle2

/-- The marking loop inside `Solution::is_valid` (`src/tsplib.rs`): walk a
cycle, rejecting vertices that are out of range or already used, and
count the vertices seen.  `none` models the early `return false`. -/
def markUsed : List Nat → List Bool → Nat → Option (List Bool × Nat)
  | [], used, count => some (used, count)
  | v :: rest, used, count =>
    if v < used.length then
      if used.getD v false then none
      else markUsed rest (used.set v true) (count + 1)
    else none

/-- `Solution::is_valid` from `src/tsplib.rs`: every vertex of the instance
is used exactly once across the two cycles.  `n` is `instance.size()`. -/
def Solution.is_valid (s : Solution) (n : Nat) : Bool :=
  match markUsed s.cycle1 (List.replicate n false) 0 with
  | none => false
  | some (used1, count1) =>
    match markUsed s.cycle2 used1 count1 with
    | none => false
    | some (used2, count2) => count2 == n && used2.all id

/-- `Solution::find_node` from `src/tsplib.rs`: position of the first
occurrence of `node_id`, searching cycle1 then cycle2. -/
def Solution.find_node (s : Solution) (node_id : Nat) : Option (CycleId × Nat) :=
  match s.cycle1.findIdx? (fun v => v == node_id) with
  | some pos => some (CycleId.Cycle1, pos)
  | none =>
    match s.cycle2.findIdx? (fun v => v == node_id) with
    | some pos => some (CycleId.Cycle2, pos)
    | none => none

/-- `Solution::get_cycle` from `src/tsplib.rs`. -/
def Solution.get_cycle (s : Solution) (cycle_id : CycleId) : List Nat :=
  match cycle_id with
  | CycleId.Cycle1 => s.cycle1
  | CycleId.Cycle2 => s.cycle2

/-- Functional rendering of `Solution::get_cycle_mut`: replace the
designated cycle of a solution. -/
def Solution.set_cycle (s : Solution) (cycle_id : CycleId) (l : List Nat) : Solution :=
  match cycle_id with
  | CycleId.Cycle1 => { s with cycle1 := l }
  | CycleId.Cycle2 => { s with cycle2 := l }

/-- `Solution::check_edge_in_cycle` from `src/tsplib.rs`: scan for the
directed edge `(a, b)` (result `1`) or `(b, a)` (result `-1`). -/
def check_edge_in_cycle (cycle : List Nat) (a b : Nat) : Option Int :=
  let n := cycle.length
  if n < 2 then none
  else (List.range n).findSome? (fun i =>
    let u := cycle.getD i 0
    let v := cycle.getD ((i + 1) % n) 0
    if u = a ∧ v = b then some 1
    else if u = b ∧ v = a then some (-1)
    else none)

/-- `Vec::swap(pos1, pos2)` on a list: both reads happen before the two
writes, so each slot receives the other slot's original value. -/
def swapPos (l : List Nat) (pos1 pos2 : Nat) : List Nat :=
  (l.set pos1 (l.getD pos2 0)).set pos2 (l.getD pos1 0)

/-- `Move::apply` from `src/moves/types.rs`.  Each referenced node is
re-located by identity (`find_node`) before mutating; every failure
branch (node missing, wrong cycle, cycle shorter than 2 for the edge
move) only logs a warning in the source and leaves the solution
unchanged.  The 2-opt reversal distinguishes the wrapping case
(`start > end`): the source copies the wrapped arc into a scratch
vector, reverses it and writes it back over positions `start..n` and
`0..=end`, which is rendered here with `take`/`drop` arithmetic. -/
def Move.apply (m : Move) (solution : Solution) : Solution :=
  match m with
  | Move.InterRouteExchange v1 v2 =>
    match solution.find_node v1, solution.find_node v2 with
    | some (CycleId.Cycle1, pos1), some (CycleId.Cycle2, pos2) =>
      { solution with
        cycle1 := solution.cycle1.set pos1 v2
        cycle2 := solution.cycle2.set pos2 v1 }
    | some (CycleId.Cycle2, pos1), some (CycleId.Cycle1, pos2) =>
      { solution with
        cycle2 := solution.cycle2.set pos1 v2
        cycle1 := solution.cycle1.set pos2 v1 }
    | _, _ => solution
  | Move.IntraRouteVertexExchange v1 v2 cycle =>
    match solution.find_node v1, solution.find_node v2 with
    | some (c1, pos1), some (c2, pos2) =>
      if c1 = cycle ∧ c2 = cycle then
        solution.set_cycle cycle (swapPos (solution.get_cycle cycle) pos1 pos2)
      else solution
    | _, _ => solution
  | Move.IntraRouteEdgeExchange _ b c _ cycle =>
    match solution.find_node b, solution.find_node c with
    | some (cb, pos_b), some (cc, pos_c) =>
      if cb = cycle ∧ cc = cycle then
        let cycle_vec := solution.get_cycle cycle
        let n := cycle_vec.length
        if n < 2 then solution
        else
          let start := pos_b
          let stop := pos_c
          if start > stop then
            let temp_rev := ((cycle_vec.drop start) ++ (cycle_vec.take (stop + 1))).reverse
            solution.set_cycle cycle
              (temp_rev.drop (n - start) ++ ((cycle_vec.take start).drop (stop + 1))
                ++ temp_rev.take (n - start))
          else
            solution.set_cycle cycle
              (cycle_vec.take start ++ ((cycle_vec.take (stop + 1)).drop start).reverse
                ++ cycle_vec.drop (stop + 1))
      else solution
    | _, _ => solution

/-- `evaluate_inter_route_exchange` from `src/moves/inter_route.rs`: cost
delta of exchanging the vertex at `pos1` of cycle1 with the vertex at
`pos2` of cycle2, with the special-cased doubled edge terms for cycles of
length exactly 2.  The returned move carries the two exchanged nodes `u`
and `v`, matching the field declaration `InterRouteExchange { v1, v2 }`
of `src/moves/types.rs` (node ids) that `Move::apply` resolves; the
constructor expression literally written at line 108 of the source names
the position arguments instead and is reproduced verbatim in
`evaluate_inter_route_exchange_as_written` below. -/
def evaluate_inter_route_exchange (dist : Nat → Nat → Int) (solution : Solution)
    (pos1 pos2 : Nat) : Option EvaluatedMove :=
  if solution.cycle1.length < 2 ∨ solution.cycle2.length < 2 then none
  else if pos1 ≥ solution.cycle1.length ∨ pos2 ≥ solution.cycle2.length then none
  else
    let cycle1 := solution.cycle1
    let cycle2 := solution.cycle2
    let u := cycle1.getD pos1 0
    let v := cycle2.getD pos2 0
    let prev_u_pos := if pos1 = 0 then cycle1.length - 1 else pos1 - 1
    let next_u_pos := (pos1 + 1) % cycle1.length
    let prev_u := cycle1.getD prev_u_pos 0
    let next_u := cycle1.getD next_u_pos 0
    let cost_removed_c1 := if 1 < cycle1.length then dist prev_u u + dist u next_u else 0
    let cost_added_c1 := if 1 < cycle1.length then dist prev_u v + dist v next_u else 0
    let prev_v_pos := if pos2 = 0 then cycle2.length - 1 else pos2 - 1
    let next_v_pos := (pos2 + 1) % cycle2.length
    let prev_v := cycle2.getD prev_v_pos 0
    let next_v := cycle2.getD next_v_pos 0
    let cost_removed_c2 := if 1 < cycle2.length then dist prev_v v + dist v next_v else 0
    let cost_added_c2 := if 1 < cycle2.length then dist prev_v u + dist u next_v else 0
    let delta :=
      if cycle1.length = 2 ∧ cycle2.length = 2 then
        (2 * dist prev_u v - 2 * dist prev_u u) + (2 * dist prev_v u - 2 * dist prev_v v)
      else if cycle1.length = 2 then
        (2 * dist prev_u v - 2 * dist prev_u u) + (cost_added_c2 - cost_removed_c2)
      else if cycle2.length = 2 then
        (cost_added_c1 - cost_removed_c1) + (2 * dist prev_v u - 2 * dist prev_v v)
      else
        (cost_added_c1 - cost_removed_c1) + (cost_added_c2 - cost_removed_c2)
    some { move_type := Move.InterRouteExchange u v, delta := delta }

/-- The move constructor of `evaluate_inter_route_exchange` exactly as
written in `src/moves/inter_route.rs` line 108: the expression
`Move::InterRouteExchange { pos1, pos2 }` supplies the position arguments
`pos1` and `pos2` as the payload, even though the variant's fields `v1`
and `v2` are declared and documented in `src/moves/types.rs` as the node
ids involved in the move. -/
def evaluate_inter_route_exchange_as_written (dist : Nat → Nat → Int)
    (solution : Solution) (pos1 pos2 : Nat) : Option EvaluatedMove :=
  match evaluate_inter_route_exchange dist solution pos1 pos2 with
  | none => none
  | some em => some { em with move_type := Move.InterRouteExchange pos1 pos2 }

/-- Cycle selection helper `get_cycle_vec` from `src/moves/intra_route.rs`. -/
def get_cycle_vec (solution : Solution) (cycle : CycleId) : List Nat :=
  match cycle with
  | CycleId.Cycle1 => solution.cycle1
  | CycleId.Cycle2 => solution.cycle2

/-- `evaluate_intra_route_vertex_exchange` from `src/moves/intra_route.rs`:
cost delta of swapping the vertices at `pos1` and `pos2` inside `cycle`,
with the three-way case split on adjacency, wrapped adjacency and the
general case.  The returned move carries the two swapped nodes, matching
the `IntraRouteVertexExchange { v1, v2, cycle }` field declaration of
`src/moves/types.rs` (the constructor expression written in the source
names the positions instead, see `c5` below). -/
def evaluate_intra_route_vertex_exchange (dist : Nat → Nat → Int)
    (solution : Solution) (cycle : CycleId) (pos1 pos2 : Nat) : Option EvaluatedMove :=
  let cycle_vec := get_cycle_vec solution cycle
  let n := cycle_vec.length
  if pos1 = pos2 ∨ n < 2 ∨ pos1 ≥ n ∨ pos2 ≥ n then none
  else
    let p1 := min pos1 pos2
    let p2 := max pos1 pos2
    let v1 := cycle_vec.getD p1 0
    let v2 := cycle_vec.getD p2 0
    let prev1 := cycle_vec.getD (if p1 = 0 then n - 1 else p1 - 1) 0
    let next1 := cycle_vec.getD ((p1 + 1) % n) 0
    let prev2 := cycle_vec.getD (if p2 = 0 then n - 1 else p2 - 1) 0
    let next2 := cycle_vec.getD ((p2 + 1) % n) 0
    if p2 = p1 + 1 then
      let cost_removed := dist prev1 v1 + dist v1 v2 + dist v2 next2
      let cost_added := dist prev1 v2 + dist v2 v1 + dist v1 next2
      some { move_type := Move.IntraRouteVertexExchange v1 v2 cycle
             delta := cost_added - cost_removed }
    else if p1 = 0 ∧ p2 = n - 1 then
      let cost_removed := dist v2 v1 + dist v1 next1 + dist prev2 v2
      let cost_added := dist v1 v2 + dist v2 next1 + dist prev2 v1
      some { move_type := Move.IntraRouteVertexExchange v1 v2 cycle
             delta := cost_added - cost_removed }
    else
      let cost_removed := dist prev1 v1 + dist v1 next1 + dist prev2 v2 + dist v2 next2
      let cost_added := dist prev1 v2 + dist v2 next1 + dist prev2 v1 + dist v1 next2
      some { move_type := Move.IntraRouteVertexExchange v1 v2 cycle
             delta := cost_added - cost_removed }

/-- `evaluate_intra_route_edge_exchange` from `src/moves/intra_route.rs`:
the 2-opt delta `dist(v_i, v_j) + dist(v_{i+1}, v_{j+1}) - dist(v_i,
v_{i+1}) - dist(v_j, v_{j+1})` after normalising `pos1 < pos2`.  The
returned move carries the four endpoint nodes of the two removed edges,
matching the `IntraRouteEdgeExchange { a, b, c, d, cycle }` declaration
of `src/moves/types.rs` (the constructor expression written in the
source supplies only the two positions, see `c5` below). -/
def evaluate_intra_route_edge_exchange (dist : Nat → Nat → Int)
    (solution : Solution) (cycle : CycleId) (pos1 pos2 : Nat) : Option EvaluatedMove :=
  let cycle_vec := get_cycle_vec solution cycle
  let n := cycle_vec.length
  if n < 3 ∨ pos1 = pos2 ∨ (pos1 + 1) % n = pos2 ∨ (pos2 + 1) % n = pos1
      ∨ pos1 ≥ n ∨ pos2 ≥ n then none
  else
    let p1 := if pos1 < pos2 then pos1 else pos2
    let p2 := if pos1 < pos2 then pos2 else pos1
    let vi := cycle_vec.getD p1 0
    let vi_plus_1 := cycle_vec.getD ((p1 + 1) % n) 0
    let vj := cycle_vec.getD p2 0
    let vj_plus_1 := cycle_vec.getD ((p2 + 1) % n) 0
    let cost_removed := dist vi vi_plus_1 + dist vj vj_plus_1
    let cost_added := dist vi vj + dist vi_plus_1 vj_plus_1
    some { move_type := Move.IntraRouteEdgeExchange vi vi_plus_1 vj vj_plus_1 cycle
           delta := cost_added - cost_removed }

/-- SearchVariant from `src/algorithms/local_search/base.rs`. -/
inductive SearchVariant
  | Steepest
  | Greedy
  | CandidateSteepest (k : Nat)
  | MoveListSteepest
deriving DecidableEq, Repr

/-- NeighborhoodType from `src/algorithms/local_search/base.rs`. -/
inductive NeighborhoodType
  | VertexExchange
  | EdgeExchange
deriving DecidableEq, Repr

/-- Filter used throughout `base.rs` move generation: keep only evaluated
moves with strictly negative delta. -/
def keepImproving (m : Option EvaluatedMove) : Option EvaluatedMove :=
  match m with
  | some em => if em.delta < 0 then some em else none
  | none => none

/-- `LocalSearch::generate_all_improving_moves` from `base.rs`: all
inter-route exchanges, plus the intra-route moves of the configured
neighborhood (vertex pairs `pos1 < pos2`, or non-adjacent edge pairs
enumerated by offset), keeping only moves with `delta < 0`. -/
def generate_all_improving_moves (dist : Nat → Nat → Int)
    (neighborhood : NeighborhoodType) (solution : Solution) : List EvaluatedMove :=
  let inter := (List.range solution.cycle1.length).flatMap (fun pos1 =>
    (List.range solution.cycle2.length).filterMap (fun pos2 =>
      keepImproving (evaluate_inter_route_exchange dist solution pos1 pos2)))
  let intra := [CycleId.Cycle1, CycleId.Cycle2].flatMap (fun cycle_id =>
    let n := (solution.get_cycle cycle_id).length
    match neighborhood with
    | NeighborhoodType.VertexExchange =>
      if n ≥ 2 then
        (List.range n).flatMap (fun pos1 =>
          (List.range' (pos1 + 1) (n - (pos1 + 1))).filterMap (fun pos2 =>
            keepImproving
              (evaluate_intra_route_vertex_exchange dist solution cycle_id pos1 pos2)))
      else []
    | NeighborhoodType.EdgeExchange =>
      if n ≥ 3 then
        (List.range n).flatMap (fun pos1 =>
          (List.range' 2 (n - 2)).filterMap (fun pos2_offset =>
            let pos2 := (pos1 + pos2_offset) % n
            if (pos1 < pos2 ∨ (pos2 = 0 ∧ pos1 = n - 1)) ∧ ¬(pos1 = 0 ∧ pos2 = n - 1) then
              keepImproving
                (evaluate_intra_route_edge_exchange dist solution cycle_id pos1 pos2)
            else none))
      else [])
  inter ++ intra

/-- Modelled from the spec: `evaluate_candidate_intra_route_edge_exchange`
is imported by `base.rs` but its definition is not in `src/` (the file
`src/moves/intra_route.rs` present here only defines the two evaluators
above).  Per spec section 4.7 the candidate-restricted search uses the
same evaluation as the full neighborhood, restricted to (node, neighbor)
pairs, so this models it as the edge-exchange evaluation of the two
nodes' positions normalised to `pos1 < pos2` as that evaluator assumes. -/
def evaluate_candidate_intra_route_edge_exchange (dist : Nat → Nat → Int)
    (solution : Solution) (cycle : CycleId) (pos_a pos_b : Nat) : Option EvaluatedMove :=
  evaluate_intra_route_edge_exchange dist solution cycle (min pos_a pos_b) (max pos_a pos_b)

/-- `LocalSearch::generate_candidate_moves` from `base.rs`: for every node
`node_a` of the instance and every precomputed near neighbor `node_b`,
evaluate the inter-route exchange when the two nodes sit in different
cycles (with the position arguments ordered by cycle), or the configured
intra-route move when they share a cycle; keep only `delta < 0`. -/
def generate_candidate_moves (dist : Nat → Nat → Int)
    (neighborhood : NeighborhoodType) (nearest : Nat → List Nat) (dim : Nat)
    (solution : Solution) : List EvaluatedMove :=
  (List.range dim).flatMap (fun node_a =>
    match solution.find_node node_a with
    | none => []
    | some (cycle_a, pos_a) =>
      (nearest node_a).filterMap (fun node_b =>
        if node_a = node_b then none
        else match solution.find_node node_b with
        | none => none
        | some (cycle_b, pos_b) =>
          if cycle_a ≠ cycle_b then
            let actual_pos_a := if cycle_a = CycleId.Cycle1 then pos_a else pos_b
            let actual_pos_b := if cycle_a = CycleId.Cycle1 then pos_b else pos_a
            keepImproving
              (evaluate_inter_route_exchange dist solution actual_pos_a actual_pos_b)
          else match neighborhood with
          | NeighborhoodType.EdgeExchange =>
            keepImproving
              (evaluate_candidate_intra_route_edge_exchange dist solution cycle_a pos_a pos_b)
          | NeighborhoodType.VertexExchange =>
            keepImproving
              (evaluate_intra_route_vertex_exchange dist solution cycle_a pos_a pos_b)))

/-- `LocalSearch::is_move_valid` from `base.rs`: an inter-route move needs
its nodes in different cycles; a vertex move needs both nodes in the
stated cycle; an edge move needs both directed edges `(a, b)` and
`(c, d)` present in the stated cycle in the stored direction. -/
def is_move_valid (solution : Solution) (move_type : Move) : Bool :=
  match move_type with
  | Move.InterRouteExchange v1 v2 =>
    match solution.find_node v1, solution.find_node v2 with
    | some (c1, _), some (c2, _) => c1 ≠ c2
    | _, _ => false
  | Move.IntraRouteVertexExchange v1 v2 cycle =>
    match solution.find_node v1, solution.find_node v2 with
    | some (c1, _), some (c2, _) => c1 = cycle && c2 = cycle
    | _, _ => false
  | Move.IntraRouteEdgeExchange a b c d cycle =>
    check_edge_in_cycle (solution.get_cycle cycle) a b == some 1
      && check_edge_in_cycle (solution.get_cycle cycle) c d == some 1

/-- `LocalSearch::identify_affected_nodes` from `base.rs` (the source marks
it a placeholder): the nodes named by the applied move, without their
cycle neighbors. -/
def identify_affected_nodes (applied_move : Move) : List Nat :=
  match applied_move with
  | Move.InterRouteExchange v1 v2 => [v1, v2]
  | Move.IntraRouteVertexExchange v1 v2 _ => [v1, v2]
  | Move.IntraRouteEdgeExchange a b c d _ => [a, b, c, d]

/-- `LocalSearch::move_involves_nodes` from `base.rs`. -/
def move_involves_nodes (move_type : Move) (affected_nodes : List Nat) : Bool :=
  if affected_nodes.isEmpty then false
  else match move_type with
  | Move.InterRouteExchange v1 v2 => affected_nodes.contains v1 || affected_nodes.contains v2
  | Move.IntraRouteVertexExchange v1 v2 _ =>
    affected_nodes.contains v1 || affected_nodes.contains v2
  | Move.IntraRouteEdgeExchange a b c d _ =>
    affected_nodes.contains a || affected_nodes.contains b
      || affected_nodes.contains c || affected_nodes.contains d

/-- `LocalSearch::generate_moves_around_nodes` from `base.rs`: the source
body is a commented-out sketch followed by `new_moves` still empty, i.e.
the regeneration step of the move-list maintenance is a placeholder that
produces no moves. -/
def generate_moves_around_nodes (_dist : Nat → Nat → Int)
    (_solution : Solution) (affected_nodes : List Nat) : List EvaluatedMove :=
  let new_moves : List EvaluatedMove := []
  if affected_nodes.isEmpty then new_moves else new_moves

/-- Sorted insertion used to render `move_list.binary_search_by` on the
delta followed by `insert`: the new move is placed before the first entry
of equal or larger delta (the source inserts at whichever index the
binary search reports among equal deltas; the resulting list is sorted by
delta either way). -/
def insert_sorted (m : EvaluatedMove) (l : List EvaluatedMove) : List EvaluatedMove :=
  match l with
  | [] => [m]
  | x :: xs => if m.delta ≤ x.delta then m :: x :: xs else x :: insert_sorted m xs

/-- Rendering of `sort_unstable_by(|a, b| a.delta.cmp(&b.delta))` on the
initial move list: an insertion sort ascending by delta (the unstable
sort of the source leaves the order of equal deltas unspecified). -/
def sort_by_delta (l : List EvaluatedMove) : List EvaluatedMove :=
  l.foldr insert_sorted []

/-- The merge loop of the move-list update in `base.rs` (step 5): seed a
seen-set with the move identities already in the list, then insert each
new improving move whose identity is not yet present at its sorted
position. -/
def merge_new_moves (move_list : List EvaluatedMove)
    (new_moves : List EvaluatedMove) : List EvaluatedMove :=
  let seen := move_list.map (fun em => em.move_type)
  (new_moves.foldl
    (fun (acc : List EvaluatedMove × List Move) new_move =>
      if new_move.delta < 0 ∧ ¬ acc.2.contains new_move.move_type then
        (insert_sorted new_move acc.1, new_move.move_type :: acc.2)
      else acc)
    (move_list, seen)).1

/-- Steps 1-5 of the move-list maintenance block in
`solve_with_feedback` (`base.rs`): remove the applied move by index,
evict every entry that involves an affected node, regenerate moves
around the affected nodes (a placeholder producing nothing) and merge
them in sorted order. -/
def update_move_list (dist : Nat → Nat → Int) (move_list : List EvaluatedMove)
    (index : Nat) (applied : Move) (solution : Solution) : List EvaluatedMove :=
  let removed := move_list.eraseIdx index
  let affected_nodes := identify_affected_nodes applied
  let retained := removed.filter (fun m => ¬ move_involves_nodes m.move_type affected_nodes)
  let new_moves := generate_moves_around_nodes dist solution affected_nodes
  merge_new_moves retained new_moves

/-- Rounding of the square root of a natural number, i.e. the value of
`f64::round` applied to `sqrt n` for exact nonnegative inputs (`round`
half away from zero and mathematical rounding agree on nonnegative
arguments).  `round (sqrt n)` is the number of positive half-integers
`i + 1/2` that are at most `sqrt n`, i.e. of indices `i` with
`(2 i + 1)^2 ≤ 4 n`; the theorem `roundSqrt_eq_round_real_sqrt` below
verifies this count against Mathlib's `round` and `Real.sqrt`. -/
def roundSqrt (n : Nat) : Nat :=
  ((List.range (n + 1)).filter (fun i => (2 * i + 1) * (2 * i + 1) ≤ 4 * n)).length

/-- `TsplibInstance::calculate_distance` from `src/tsplib.rs`, for the
`EUC_2D` branch: `0` on the diagonal, else the Euclidean distance of the
two coordinates rounded to the nearest integer.  The `f64` coordinates
and square root of the source are modelled exactly over integer
coordinates (`roundSqrt` of the squared distance). -/
def calculate_distance (coords : List (Int × Int)) (i j : Nat) : Int :=
  if i = j then 0
  else
    let p := coords.getD i (0, 0)
    let q := coords.getD j (0, 0)
    (roundSqrt (((q.1 - p.1) * (q.1 - p.1) + (q.2 - p.2) * (q.2 - p.2)).toNat) : Int)

/-- TsplibInstance from `src/tsplib.rs`, restricted to the fields the
claims touch: the dimension, the coordinates (source of the cached
distance matrix) and the precomputed nearest-neighbor lists. -/
structure TsplibInstance where
  dimension : Nat
  coordinates : List (Int × Int)
  nearest_neighbors : List (List Nat)
deriving DecidableEq, Repr

/-- `TsplibInstance::distance`: lookup in the matrix that
`calculate_distance_matrix` fills with `calculate_distance`. -/
def TsplibInstance.distance (inst : TsplibInstance) (i j : Nat) : Int :=
  calculate_distance inst.coordinates i j

/-- The instance state built by `TsplibInstance::from_file` before any
neighbor precomputation: `nearest_neighbors` is
`vec![Vec::new(); dimension]`. -/
def TsplibInstance.load (dimension : Nat) (coordinates : List (Int × Int)) : TsplibInstance :=
  { dimension := dimension
    coordinates := coordinates
    nearest_neighbors := List.replicate dimension [] }

/-- `TsplibInstance::precompute_nearest_neighbors` from `src/tsplib.rs`:
reject `k = 0` or `k ≥ dimension` (clearing the lists), return early when
the first node's list already has length `k`, and otherwise store for
every node the `k` nearest other nodes sorted ascending by distance
(`sort_unstable_by_key`; ties are returned in an unspecified order by the
unstable sort, rendered here by a stable merge sort on the key). -/
def TsplibInstance.precompute_nearest_neighbors (inst : TsplibInstance)
    (k : Nat) : TsplibInstance :=
  if k = 0 ∨ k ≥ inst.dimension then
    { inst with nearest_neighbors := List.replicate inst.dimension [] }
  else if ¬ (inst.nearest_neighbors.getD 0 []).isEmpty
      ∧ (inst.nearest_neighbors.getD 0 []).length = k then inst
  else
    { inst with
      nearest_neighbors := (List.range inst.dimension).map (fun i =>
        let neighbors := ((List.range inst.dimension).filter (fun j => i ≠ j)).map
          (fun j => (j, inst.distance i j))
        (((neighbors.mergeSort (fun a b => decide (a.2 ≤ b.2))).take k).map
          (fun p => p.1))) }

/-- `TsplibInstance::get_nearest_neighbors` from `src/tsplib.rs`: the two
`panic!` calls (neighbors not precomputed; node id out of range) are
modelled as `Except.error`. -/
def TsplibInstance.get_nearest_neighbors (inst : TsplibInstance)
    (node_id : Nat) : Except String (List Nat) :=
  if inst.nearest_neighbors.isEmpty ∨ (inst.nearest_neighbors.getD 0 []).isEmpty then
    Except.error "Nearest neighbors requested but not precomputed."
  else if node_id ≥ inst.dimension then
    Except.error "Invalid node_id requested for nearest neighbors."
  else Except.ok (inst.nearest_neighbors.getD node_id [])

/-- One entry of the selection fold of the Steepest variants:
`min_by_key(|m| m.delta)` keeps the first element of minimal delta. -/
def min_by_delta (moves : List EvaluatedMove) : Option EvaluatedMove :=
  moves.foldl
    (fun acc m =>
      match acc with
      | none => some m
      | some best => if m.delta < best.delta then some m else some best)
    none

/-- The scan of the persistent move list in the MoveListSteepest branch of
`solve_with_feedback`: the first entry that still improves and is valid
against the current solution, together with its index. -/
def find_first_valid_move (solution : Solution) : List EvaluatedMove →
    Nat → Option (Nat × EvaluatedMove)
  | [], _ => none
  | em :: rest, index =>
    if em.delta < 0 ∧ is_move_valid solution em.move_type then some (index, em)
    else find_first_valid_move solution rest (index + 1)

/-- State carried between iterations of the `loop` in
`solve_with_feedback`: the current solution, the tracked cost, the
persistent move list (used by MoveListSteepest only) and the iteration
counter (used to index the Greedy shuffle oracle). -/
structure SearchState where
  solution : Solution
  cost : Int
  move_list : List EvaluatedMove
  iteration : Nat
deriving Repr, DecidableEq

/-- Result of one pass of the `loop` in `solve_with_feedback`: either the
loop breaks with the final solution and cost, or it continues with an
updated state. -/
inductive StepResult
  | done (solution : Solution) (cost : Int)
  | next (st : SearchState)
deriving Repr, DecidableEq

/-- The move generation/selection phase of one iteration of
`solve_with_feedback` (`base.rs`): Steepest and CandidateSteepest take
the minimum-delta improving move of the freshly generated set, Greedy
takes the first improving move of the oracle-shuffled set,
MoveListSteepest takes the first valid improving entry of the persistent
list together with its index (`best_move_index`). -/
def select_move (variant : SearchVariant) (neighborhood : NeighborhoodType)
    (dist : Nat → Nat → Int) (nearest : Nat → List Nat) (dim : Nat)
    (shuffle : Nat → List EvaluatedMove → List EvaluatedMove)
    (st : SearchState) : Option (EvaluatedMove × Option Nat) :=
  match variant with
  | SearchVariant.Steepest =>
    match min_by_delta (generate_all_improving_moves dist neighborhood st.solution) with
    | some best => if best.delta < 0 then some (best, none) else none
    | none => none
  | SearchVariant.CandidateSteepest _ =>
    match min_by_delta (generate_candidate_moves dist neighborhood nearest dim st.solution) with
    | some best => if best.delta < 0 then some (best, none) else none
    | none => none
  | SearchVariant.Greedy =>
    match (shuffle st.iteration
        (generate_all_improving_moves dist neighborhood st.solution)).find?
        (fun m => m.delta < 0) with
    | some first => some (first, none)
    | none => none
  | SearchVariant.MoveListSteepest =>
    match find_first_valid_move st.solution st.move_list 0 with
    | some (index, em) => some (em, some index)
    | none => none

/-- One iteration of the `loop` of `solve_with_feedback` (`base.rs`).
The move generation/selection phase follows the active variant
(Steepest and CandidateSteepest take the minimum-delta improving move of
the freshly generated set, Greedy takes the head of the oracle-shuffled
set, MoveListSteepest takes the first valid improving entry of the
persistent list); the selected move is applied, the tracked cost is
advanced by the predicted delta and, whenever the recomputed true cost
differs (any integer mismatch exceeds the source's `1e-6` tolerance),
corrected to the recomputed value; the move list is repaired for the
MoveListSteepest variant; finally the loop breaks when no move was
selected or when the cost failed to strictly decrease since the start of
the iteration.  `dist` stands for `instance.distance`, `nearest` for the
precomputed neighbor lists consumed by the candidate variant, and
`shuffle` for the random shuffle of the Greedy variant, indexed by the
iteration counter. -/
def solve_step (variant : SearchVariant) (neighborhood : NeighborhoodType)
    (dist : Nat → Nat → Int) (nearest : Nat → List Nat) (dim : Nat)
    (shuffle : Nat → List EvaluatedMove → List EvaluatedMove)
    (st : SearchState) : StepResult :=
  match select_move variant neighborhood dist nearest dim shuffle st with
  | none => StepResult.done st.solution st.cost
  | some (applied_move, best_move_index) =>
    let solution' := applied_move.move_type.apply st.solution
    let incremental_cost := st.cost + applied_move.delta
    let real_cost_after_apply := solution'.calculate_cost dist
    let current_cost :=
      if real_cost_after_apply ≠ incremental_cost then real_cost_after_apply
      else incremental_cost
    let move_list' :=
      if variant = SearchVariant.MoveListSteepest then
        match best_move_index with
        | some index =>
          update_move_list dist st.move_list index applied_move.move_type solution'
        | none => st.move_list
      else st.move_list
    if current_cost ≥ st.cost then StepResult.done solution' current_cost
    else StepResult.next
      { solution := solution'
        cost := current_cost
        move_list := move_list'
        iteration := st.iteration + 1 }

/-- The `loop` of `solve_with_feedback`, with explicit fuel: `none` means
the fuel ran out before the loop broke.  The convergence theorem below
shows that a fuel of `cost.toNat + 2` always suffices. -/
def solve_loop (variant : SearchVariant) (neighborhood : NeighborhoodType)
    (dist : Nat → Nat → Int) (nearest : Nat → List Nat) (dim : Nat)
    (shuffle : Nat → List EvaluatedMove → List EvaluatedMove) :
    Nat → SearchState → Option (Solution × Int)
  | 0, _ => none
  | fuel + 1, st =>
    match solve_step variant neighborhood dist nearest dim shuffle st with
    | StepResult.done solution cost => some (solution, cost)
    | StepResult.next st' =>
      solve_loop variant neighborhood dist nearest dim shuffle fuel st'

/-- `LocalSearch::solve_with_feedback` from `base.rs`.  The initial
solution is a parameter: the providers named by the source
(`crate::utils::generate_random_solution` and the constructive heuristic
module) are not under `src/`, and per spec section 6 any provider
returning a Solution satisfying the partition invariant may be used.
The initial cost is computed from scratch; the MoveListSteepest variant
additionally seeds its persistent list with all improving moves sorted
ascending by delta (`sort_unstable_by` on the delta; rendered by a merge
sort on the same key). -/
def solve_with_feedback (variant : SearchVariant) (neighborhood : NeighborhoodType)
    (dist : Nat → Nat → Int) (nearest : Nat → List Nat) (dim : Nat)
    (shuffle : Nat → List EvaluatedMove → List EvaluatedMove)
    (init : Solution) (fuel : Nat) : Option (Solution × Int) :=
  let initial_cost := init.calculate_cost dist
  let move_list :=
    if variant = SearchVariant.MoveListSteepest then
      sort_by_delta (generate_all_improving_moves dist neighborhood init)
    else []
  solve_loop variant neighborhood dist nearest dim shuffle fuel
    { solution := init, cost := initial_cost, move_list := move_list, iteration := 0 }

/-! Auxiliary definitions used by the statements and proofs below. -/

/-- Cost of walking a vertex sequence without closing it: the sum of
`dist` over consecutive pairs. -/
def pathCost (dist : Nat → Nat → Int) : List Nat → Int
  | [] => 0
  | [_] => 0
  | a :: b :: rest => dist a b + pathCost dist (b :: rest)

/-- Whether `Move::apply` can locate every node the move references in the
cycle(s) its definition requires; exactly the guard of each mutating
branch of `Move::apply`. -/
def move_targets_located (m : Move) (s : Solution) : Bool :=
  match m with
  | Move.InterRouteExchange v1 v2 =>
    match s.find_node v1, s.find_node v2 with
    | some (CycleId.Cycle1, _), some (CycleId.Cycle2, _) => true
    | some (CycleId.Cycle2, _), some (CycleId.Cycle1, _) => true
    | _, _ => false
  | Move.IntraRouteVertexExchange v1 v2 cycle =>
    match s.find_node v1, s.find_node v2 with
    | some (c1, _), some (c2, _) => c1 = cycle ∧ c2 = cycle
    | _, _ => false
  | Move.IntraRouteEdgeExchange _ b c _ cycle =>
    match s.find_node b, s.find_node c with
    | some (cb, _), some (cc, _) => cb = cycle ∧ cc = cycle
    | _, _ => false

/-- Whether an `Except` result is the error (panic) outcome. -/
def isError {ε α : Type} (e : Except ε α) : Bool :=
  match e with
  | Except.error _ => true
  | Except.ok _ => false

/-- Coordinates of the 6-node instance used as the concrete input for the
move-list cost counterexample. -/
def mlCoords : List (Int × Int) := [(5,9),(10,3),(8,7),(7,8),(4,0),(8,0)]

/-- Initial solution (a valid 3/3 split) for the move-list cost
counterexample. -/
def mlInit : Solution := ⟨[4, 1, 2], [5, 3, 0]⟩

/-- Coordinates of the 8-node instance used as the concrete input for the
move-list maintenance counterexample. -/
def regenCoords : List (Int × Int) := [(3,3),(0,2),(5,2),(2,8),(8,5),(8,10),(8,2),(14,7)]

/-- Initial solution (a valid 4/4 split) for the move-list maintenance
counterexample. -/
def regenInit : Solution := ⟨[0, 3, 1, 7], [2, 4, 5, 6]⟩

/-- Initial engine state of the MoveListSteepest variant on the 8-node
maintenance instance, as `solve_with_feedback` builds it: cost computed
from scratch and the move list seeded with all improving moves sorted
ascending by delta. -/
def regenState : SearchState :=
  { solution := regenInit
    cost := regenInit.calculate_cost (calculate_distance regenCoords)
    move_list := sort_by_delta (generate_all_improving_moves (calculate_distance regenCoords)
        NeighborhoodType.VertexExchange regenInit)
    iteration := 0 }

/-- Maintained engine state produced by the first MoveListSteepest
iteration on the 8-node maintenance instance (the value of
`solve_step` there, recorded explicitly). -/
def regenNext : SearchState :=
  { solution := ⟨[0, 3, 1, 2], [7, 4, 5, 6]⟩
    cost := 45
    move_list :=
      [⟨Move.InterRouteExchange 0 5, -7⟩,
       ⟨Move.IntraRouteVertexExchange 3 1 CycleId.Cycle1, -5⟩,
       ⟨Move.InterRouteExchange 1 5, -4⟩,
       ⟨Move.IntraRouteVertexExchange 0 3 CycleId.Cycle1, -3⟩,
       ⟨Move.InterRouteExchange 0 4, -2⟩,
       ⟨Move.InterRouteExchange 0 6, -1⟩,
       ⟨Move.InterRouteExchange 1 4, -1⟩]
    iteration := 1 }

/-- The cumulative effect of the marking loop of `is_valid` on the `used`
array: every position named by the list is set to true. -/
def markAll (l : List Nat) (used : List Bool) : List Bool :=
  l.foldl (fun u v => u.set v true) used

/-! Theorems.  Each claim of the specification is settled by exactly one
theorem below (plus, where applicable, a closed counterexample and a
closed witness). -/

theorem getD_set_self (used : List Bool) (v : Nat) (b : Bool) (h : v < used.length) :
    (used.set v b).getD v false = b := by
  rw [List.getD_eq_getElem _ _ (by simpa using h), List.getElem_set, if_pos rfl]

theorem getD_set_ne (used : List Bool) (v w : Nat) (b : Bool) (h : w ≠ v) :
    (used.set v b).getD w false = used.getD w false := by
  by_cases hw : w < used.length
  · rw [List.getD_eq_getElem _ _ (by simpa using hw), List.getD_eq_getElem _ _ hw,
      List.getElem_set, if_neg (fun hvw => h hvw.symm)]
  · rw [List.getD_eq_default _ _ (by simpa using Nat.le_of_not_lt hw),
      List.getD_eq_default _ _ (Nat.le_of_not_lt hw)]

theorem markAll_length (l : List Nat) (used : List Bool) :
    (markAll l used).length = used.length := by
  induction l generalizing used with
  | nil => rfl
  | cons v rest ih =>
    show (markAll rest (used.set v true)).length = _
    rw [ih, List.length_set]

theorem getD_markAll (l : List Nat) (used : List Bool) (w : Nat) :
    (markAll l used).getD w false
      = (used.getD w false || (decide (w ∈ l) && decide (w < used.length))) := by
  induction l generalizing used with
  | nil => simp [markAll]
  | cons v rest ih =>
    show (markAll rest (used.set v true)).getD w false = _
    rw [ih, List.length_set]
    by_cases hwv : w = v
    · subst hwv
      by_cases hlt : w < used.length
      · rw [getD_set_self _ _ _ hlt]
        simp [hlt]
      · rw [List.set_eq_of_length_le (Nat.le_of_not_lt hlt)]
        simp [hlt]
    · rw [getD_set_ne _ _ _ _ hwv]
      simp [hwv, List.mem_cons]

theorem markUsed_isSome_iff : ∀ (l : List Nat) (used : List Bool) (count : Nat),
    (markUsed l used count).isSome = true ↔
      (l.Nodup ∧ ∀ v ∈ l, v < used.length ∧ used.getD v false = false)
  | [], used, count => by simp [markUsed]
  | v :: rest, used, count => by
    simp only [markUsed]
    by_cases h1 : v < used.length
    · rw [if_pos h1]
      by_cases h2 : used.getD v false = true
      · rw [if_pos h2]
        simp only [Option.isSome_none, Bool.false_eq_true, false_iff]
        rintro ⟨_, hall⟩
        have := (hall v (List.mem_cons_self v rest)).2
        rw [h2] at this
        cases this
      · rw [if_neg h2]
        rw [markUsed_isSome_iff rest (used.set v true) (count + 1)]
        constructor
        · rintro ⟨hnd, hall⟩
          refine ⟨List.nodup_cons.mpr ⟨fun hmem => ?_, hnd⟩, fun w hw => ?_⟩
          · have hvt := (hall v hmem).2
            rw [getD_set_self _ _ _ h1] at hvt
            cases hvt
          · rcases List.mem_cons.mp hw with hwv | hwr
            · subst hwv
              exact ⟨h1, Bool.eq_false_iff.mpr h2⟩
            · have ⟨hlt, hfa⟩ := hall w hwr
              rw [List.length_set] at hlt
              refine ⟨hlt, ?_⟩
              by_cases hwv : w = v
              · subst hwv
                rw [getD_set_self _ _ _ h1] at hfa
                cases hfa
              · rw [getD_set_ne _ _ _ _ hwv] at hfa
                exact hfa
        · rintro ⟨hnd, hall⟩
          obtain ⟨hvnotin, hndr⟩ := List.nodup_cons.mp hnd
          refine ⟨hndr, fun w hw => ?_⟩
          have ⟨hlt, hfa⟩ := hall w (List.mem_cons_of_mem v hw)
          rw [List.length_set]
          refine ⟨hlt, ?_⟩
          have hwv : w ≠ v := fun hcon => hvnotin (hcon ▸ hw)
          rw [getD_set_ne _ _ _ _ hwv]
          exact hfa
    · rw [if_neg h1]
      simp only [Option.isSome_none, Bool.false_eq_true, false_iff]
      rintro ⟨_, hall⟩
      exact h1 (hall v (List.mem_cons_self v rest)).1

theorem markUsed_eq_some : ∀ (l : List Nat) (used : List Bool) (count : Nat),
    (markUsed l used count).isSome = true →
    markUsed l used count = some (markAll l used, count + l.length)
  | [], used, count, _ => by simp [markUsed, markAll]
  | v :: rest, used, count, h => by
    have hcond := (markUsed_isSome_iff (v :: rest) used count).mp h
    have h1 : v < used.length := (hcond.2 v (List.mem_cons_self v rest)).1
    have h2 : used.getD v false = false := (hcond.2 v (List.mem_cons_self v rest)).2
    have hstep : markUsed (v :: rest) used count
        = markUsed rest (used.set v true) (count + 1) := by
      simp only [markUsed, if_pos h1, h2]
      rw [if_neg (by simp)]
    rw [hstep] at h ⊢
    rw [markUsed_eq_some rest (used.set v true) (count + 1) h]
    show _ = some (markAll rest (used.set v true), count + (rest.length + 1))
    have harith : count + 1 + rest.length = count + (rest.length + 1) := by omega
    rw [harith]

theorem getD_replicate_false (n w : Nat) :
    (List.replicate n false).getD w false = false := by
  by_cases hw : w < n
  · rw [List.getD_eq_getElem _ _ (by simpa using hw), List.getElem_replicate]
  · rw [List.getD_eq_default _ _ (by simpa using Nat.le_of_not_lt hw)]

/-- The `is_valid` check of the source is exactly the partition invariant:
the concatenation of the two cycles is a permutation of the node set
`0, …, n-1`. -/
theorem is_valid_iff_perm (s : Solution) (n : Nat) :
    s.is_valid n = true ↔ (s.cycle1 ++ s.cycle2).Perm (List.range n) := by
  constructor
  · intro h
    unfold Solution.is_valid at h
    split at h
    · cases h
    rename_i used1 count1 hm1
    split at h
    · cases h
    rename_i used2 count2 hm2
    have hsome1 : (markUsed s.cycle1 (List.replicate n false) 0).isSome = true := by
      rw [hm1]; rfl
    have hsome2 : (markUsed s.cycle2 used1 count1).isSome = true := by
      rw [hm2]; rfl
    obtain ⟨hnd1, hall1⟩ := (markUsed_isSome_iff _ _ _).mp hsome1
    have heq1 := markUsed_eq_some _ _ _ hsome1
    have hpair1 : (used1, count1)
        = (markAll s.cycle1 (List.replicate n false), 0 + s.cycle1.length) :=
      Option.some.inj (hm1.symm.trans heq1)
    rw [Prod.mk.injEq] at hpair1
    obtain ⟨hu1, hc1⟩ := hpair1
    obtain ⟨hnd2, hall2⟩ := (markUsed_isSome_iff _ _ _).mp hsome2
    have heq2 := markUsed_eq_some _ _ _ hsome2
    have hpair2 : (used2, count2) = (markAll s.cycle2 used1, count1 + s.cycle2.length) :=
      Option.some.inj (hm2.symm.trans heq2)
    rw [Prod.mk.injEq] at hpair2
    obtain ⟨hu2, hc2⟩ := hpair2
    rw [Bool.and_eq_true] at h
    obtain ⟨hcnt, hallid⟩ := h
    have hcount : count2 = n := by simpa using hcnt
    have hlen1 : used1.length = n := by
      rw [hu1, markAll_length, List.length_replicate]
    have hbound1 : ∀ v ∈ s.cycle1, v < n := fun v hv => by
      have := (hall1 v hv).1
      rwa [List.length_replicate] at this
    have hbound2 : ∀ v ∈ s.cycle2, v < n := fun v hv => by
      have := (hall2 v hv).1
      rwa [hlen1] at this
    have hdisj : ∀ v ∈ s.cycle2, v ∉ s.cycle1 := fun v hv hin1 => by
      have hfa := (hall2 v hv).2
      rw [hu1, getD_markAll, getD_replicate_false, List.length_replicate] at hfa
      simp only [Bool.false_or, Bool.and_eq_false_iff, decide_eq_false_iff_not] at hfa
      rcases hfa with hfa | hfa
      · exact hfa hin1
      · exact hfa (hbound2 v hv)
    have hnd : (s.cycle1 ++ s.cycle2).Nodup := by
      rw [List.nodup_append]
      exact ⟨hnd1, hnd2, fun a ha hb => hdisj a hb ha⟩
    rw [List.perm_ext_iff_of_nodup hnd (List.nodup_range n)]
    intro a
    constructor
    · intro ha
      rw [List.mem_range]
      rcases List.mem_append.mp ha with ha | ha
      · exact hbound1 a ha
      · exact hbound2 a ha
    · intro ha
      have han : a < n := List.mem_range.mp ha
      have hlen2 : used2.length = n := by
        rw [hu2, markAll_length, hlen1]
      have hget : used2.getD a false = true := by
        have hmem : used2.getD a false ∈ used2 := by
          rw [List.getD_eq_getElem _ _ (by rw [hlen2]; exact han)]
          exact List.getElem_mem _
        exact List.all_eq_true.mp hallid _ hmem
      rw [hu2, getD_markAll, hu1, getD_markAll, getD_replicate_false,
        List.length_replicate, markAll_length, List.length_replicate] at hget
      simp only [Bool.false_or, Bool.or_eq_true, Bool.and_eq_true,
        decide_eq_true_eq] at hget
      rw [List.mem_append]
      rcases hget with ⟨hc, _⟩ | ⟨hc, _⟩
      · exact Or.inl hc
      · exact Or.inr hc
  · intro hperm
    have hnd : (s.cycle1 ++ s.cycle2).Nodup := hperm.symm.nodup (List.nodup_range n)
    obtain ⟨hnd1, hnd2, hdisj⟩ := List.nodup_append.mp hnd
    have hbound : ∀ v ∈ s.cycle1 ++ s.cycle2, v < n := fun v hv =>
      List.mem_range.mp (hperm.mem_iff.mp hv)
    have hcov : ∀ i, i < n → i ∈ s.cycle1 ++ s.cycle2 := fun i hi =>
      hperm.mem_iff.mpr (List.mem_range.mpr hi)
    have hlen : s.cycle1.length + s.cycle2.length = n := by
      have := hperm.length_eq
      rwa [List.length_append, List.length_range] at this
    have hsome1 : (markUsed s.cycle1 (List.replicate n false) 0).isSome = true := by
      rw [markUsed_isSome_iff]
      refine ⟨hnd1, fun v hv => ?_⟩
      rw [List.length_replicate, getD_replicate_false]
      exact ⟨hbound v (List.mem_append.mpr (Or.inl hv)), rfl⟩
    have hsome2 : (markUsed s.cycle2 (markAll s.cycle1 (List.replicate n false))
        (0 + s.cycle1.length)).isSome = true := by
      rw [markUsed_isSome_iff]
      refine ⟨hnd2, fun v hv => ?_⟩
      rw [markAll_length, List.length_replicate, getD_markAll, getD_replicate_false,
        List.length_replicate]
      refine ⟨hbound v (List.mem_append.mpr (Or.inr hv)), ?_⟩
      simp only [Bool.false_or, Bool.and_eq_false_iff, decide_eq_false_iff_not]
      exact Or.inl (fun hin1 => hdisj hin1 hv)
    unfold Solution.is_valid
    rw [markUsed_eq_some _ _ _ hsome1]
    show (match markUsed s.cycle2 (markAll s.cycle1 (List.replicate n false))
        (0 + s.cycle1.length) with
      | none => false
      | some (used2, count2) => count2 == n && used2.all id) = true
    rw [markUsed_eq_some _ _ _ hsome2]
    show (0 + s.cycle1.length + s.cycle2.length == n
      && (markAll s.cycle2 (markAll s.cycle1 (List.replicate n false))).all id) = true
    rw [Bool.and_eq_true]
    constructor
    · simp only [Nat.beq_eq_true_eq]
      omega
    · rw [List.all_eq_true]
      intro x hx
      obtain ⟨i, hi, hxi⟩ := List.mem_iff_getElem.mp hx
      have hin : i < n := by
        rw [markAll_length, markAll_length, List.length_replicate] at hi
        exact hi
      have : (markAll s.cycle2 (markAll s.cycle1 (List.replicate n false))).getD i false
          = true := by
        rw [getD_markAll, getD_markAll, getD_replicate_false, List.length_replicate,
          markAll_length, List.length_replicate]
        rcases List.mem_append.mp (hcov i hin) with hc | hc
        · simp [hc, hin]
        · simp [hc, hin]
      rw [List.getD_eq_getElem _ _ hi, hxi] at this
      simp [this]

/-- A successful `find_node` lookup returns an in-range position holding
the requested node in the named cycle. -/
theorem find_node_getElem (s : Solution) (v : Nat) (cid : CycleId) (p : Nat)
    (h : s.find_node v = some (cid, p)) :
    ∃ hp : p < (s.get_cycle cid).length, (s.get_cycle cid)[p] = v := by
  unfold Solution.find_node at h
  split at h
  · next pos hfind =>
    have hinj := Option.some.inj h
    rw [Prod.mk.injEq] at hinj
    obtain ⟨hcid, hpos⟩ := hinj
    subst hcid
    subst hpos
    obtain ⟨hlt, hbeq, _⟩ := List.findIdx?_eq_some_iff_getElem.mp hfind
    exact ⟨hlt, by simpa using hbeq⟩
  · next hnone1 =>
    split at h
    · next pos hfind =>
      have hinj := Option.some.inj h
      rw [Prod.mk.injEq] at hinj
      obtain ⟨hcid, hpos⟩ := hinj
      subst hcid
      subst hpos
      obtain ⟨hlt, hbeq, _⟩ := List.findIdx?_eq_some_iff_getElem.mp hfind
      exact ⟨hlt, by simpa using hbeq⟩
    · cases h

/-- The cross-cycle write of `InterRouteExchange` preserves the combined
node multiset. -/
theorem set_set_cross_perm (l1 l2 : List Nat) (p1 p2 : Nat)
    (h1 : p1 < l1.length) (h2 : p2 < l2.length) :
    (l1.set p1 (l2[p2]) ++ l2.set p2 (l1[p1])).Perm (l1 ++ l2) := by
  rw [List.perm_iff_count]
  intro a
  rw [List.count_append, List.count_append,
    List.count_set _ _ _ _ h1, List.count_set _ _ _ _ h2]
  have hm1 : l1[p1] ∈ l1 := List.getElem_mem h1
  have hm2 : l2[p2] ∈ l2 := List.getElem_mem h2
  have hc1 : l1[p1] = a → 1 ≤ l1.count a := fun e => List.one_le_count_iff.mpr (e ▸ hm1)
  have hc2 : l2[p2] = a → 1 ≤ l2.count a := fun e => List.one_le_count_iff.mpr (e ▸ hm2)
  simp only [beq_iff_eq]
  rcases eq_or_ne (l1[p1]) a with e1 | e1
  · rcases eq_or_ne (l2[p2]) a with e2 | e2
    · have t1 := hc1 e1
      have t2 := hc2 e2
      simp [e1, e2] <;> omega
    · have t1 := hc1 e1
      simp [e1, e2] <;> omega
  · rcases eq_or_ne (l2[p2]) a with e2 | e2
    · have t2 := hc2 e2
      simp [e1, e2] <;> omega
    · simp [e1, e2] <;> omega

/-- `Vec::swap` preserves the multiset of the list. -/
theorem swapPos_perm (l : List Nat) (p1 p2 : Nat)
    (h1 : p1 < l.length) (h2 : p2 < l.length) :
    (swapPos l p1 p2).Perm l := by
  unfold swapPos
  rw [List.getD_eq_getElem _ _ h2, List.getD_eq_getElem _ _ h1]
  rw [List.perm_iff_count]
  intro a
  have h2' : p2 < (l.set p1 (l[p2])).length := by
    rw [List.length_set]
    exact h2
  rw [List.count_set _ _ _ _ h2', List.count_set _ _ _ _ h1]
  have hgs : (l.set p1 (l[p2]))[p2] = l[p2] := by
    rw [List.getElem_set]
    split <;> rfl
  rw [hgs]
  have hm1 : l[p1] ∈ l := List.getElem_mem h1
  have hm2 : l[p2] ∈ l := List.getElem_mem h2
  have hc1 : l[p1] = a → 1 ≤ l.count a := fun e => List.one_le_count_iff.mpr (e ▸ hm1)
  have hc2 : l[p2] = a → 1 ≤ l.count a := fun e => List.one_le_count_iff.mpr (e ▸ hm2)
  simp only [beq_iff_eq]
  rcases eq_or_ne (l[p1]) a with e1 | e1
  · rcases eq_or_ne (l[p2]) a with e2 | e2
    · have t1 := hc1 e1
      have t2 := hc2 e2
      simp [e1, e2] <;> omega
    · have t1 := hc1 e1
      simp [e1, e2] <;> omega
  · rcases eq_or_ne (l[p2]) a with e2 | e2
    · have t2 := hc2 e2
      simp [e1, e2] <;> omega
    · simp [e1, e2] <;> omega

/-- The in-place reversal of a non-wrapping arc preserves the multiset. -/
theorem reverse_mid_perm (l : List Nat) (start stop : Nat) (h : start ≤ stop) :
    (l.take start ++ ((l.take (stop + 1)).drop start).reverse
      ++ l.drop (stop + 1)).Perm l := by
  have hmid : (l.take start ++ ((l.take (stop + 1)).drop start).reverse
        ++ l.drop (stop + 1)).Perm
      (l.take start ++ ((l.take (stop + 1)).drop start) ++ l.drop (stop + 1)) :=
    ((List.reverse_perm _).append_left _).append_right _
  refine hmid.trans ?_
  have htt : l.take start = (l.take (stop + 1)).take start := by
    rw [List.take_take]
    congr 1
    omega
  rw [htt, List.take_append_drop, List.take_append_drop]

/-- The wrapped-arc reversal of `Move::apply` preserves the multiset. -/
theorem reverse_wrap_perm (l : List Nat) (start stop : Nat) (hlt : stop < start) :
    (((l.drop start ++ l.take (stop + 1)).reverse.drop (l.length - start))
      ++ ((l.take start).drop (stop + 1))
      ++ ((l.drop start ++ l.take (stop + 1)).reverse.take (l.length - start))).Perm l := by
  rw [List.perm_iff_count]
  intro a
  simp only [List.count_append]
  have h1 : ((l.drop start ++ l.take (stop + 1)).reverse.take (l.length - start)).count a
        + ((l.drop start ++ l.take (stop + 1)).reverse.drop (l.length - start)).count a
      = ((l.drop start ++ l.take (stop + 1)).reverse).count a := by
    rw [← List.count_append, List.take_append_drop]
  have h2 : ((l.drop start ++ l.take (stop + 1)).reverse).count a
      = (l.drop start).count a + (l.take (stop + 1)).count a := by
    rw [List.count_reverse, List.count_append]
  have h3 : (l.take (stop + 1)).count a + ((l.take start).drop (stop + 1)).count a
      = (l.take start).count a := by
    have htt : l.take (stop + 1) = (l.take start).take (stop + 1) := by
      rw [List.take_take]
      congr 1
      omega
    rw [htt, ← List.count_append, List.take_append_drop]
  have h4 : (l.take start).count a + (l.drop start).count a = l.count a := by
    rw [← List.count_append, List.take_append_drop]
  omega

/-- `Move::apply` never changes the multiset of nodes: the concatenation of
the two cycles after any application (successful or declined) is a
permutation of the one before. -/
theorem apply_perm (m : Move) (s : Solution) :
    ((m.apply s).cycle1 ++ (m.apply s).cycle2).Perm (s.cycle1 ++ s.cycle2) := by
  cases m with
  | InterRouteExchange v1 v2 =>
    rcases h1 : s.find_node v1 with _ | ⟨c1, p1⟩
    · simp only [Move.apply, h1]
      exact List.Perm.refl _
    rcases h2 : s.find_node v2 with _ | ⟨c2, p2⟩
    · cases c1 <;> simp only [Move.apply, h1, h2] <;> exact List.Perm.refl _
    obtain ⟨hp1, hg1⟩ := find_node_getElem s v1 c1 p1 h1
    obtain ⟨hp2, hg2⟩ := find_node_getElem s v2 c2 p2 h2
    cases c1 <;> cases c2 <;> simp only [Move.apply, h1, h2]
    · exact List.Perm.refl _
    · simp only [Solution.get_cycle] at hp1 hg1 hp2 hg2
      rw [← hg1, ← hg2]
      exact set_set_cross_perm _ _ _ _ hp1 hp2
    · simp only [Solution.get_cycle] at hp1 hg1 hp2 hg2
      rw [← hg1, ← hg2]
      have := set_set_cross_perm s.cycle1 s.cycle2 p2 p1 hp2 hp1
      exact this
    · exact List.Perm.refl _
  | IntraRouteVertexExchange v1 v2 cycle =>
    rcases h1 : s.find_node v1 with _ | ⟨c1, p1⟩
    · simp only [Move.apply, h1]
      exact List.Perm.refl _
    rcases h2 : s.find_node v2 with _ | ⟨c2, p2⟩
    · simp only [Move.apply, h1, h2]
      exact List.Perm.refl _
    simp only [Move.apply, h1, h2]
    by_cases hc : c1 = cycle ∧ c2 = cycle
    · rw [if_pos hc]
      obtain ⟨hp1, _⟩ := find_node_getElem s v1 c1 p1 h1
      obtain ⟨hp2, _⟩ := find_node_getElem s v2 c2 p2 h2
      rw [hc.1] at hp1
      rw [hc.2] at hp2
      have hperm := swapPos_perm (s.get_cycle cycle) p1 p2 hp1 hp2
      cases cycle
      · exact hperm.append_right _
      · exact hperm.append_left _
    · rw [if_neg hc]
  | IntraRouteEdgeExchange a b c d cycle =>
    rcases h1 : s.find_node b with _ | ⟨cb, pb⟩
    · simp only [Move.apply, h1]
      exact List.Perm.refl _
    rcases h2 : s.find_node c with _ | ⟨cc, pc⟩
    · simp only [Move.apply, h1, h2]
      exact List.Perm.refl _
    simp only [Move.apply, h1, h2]
    by_cases hc : cb = cycle ∧ cc = cycle
    · rw [if_pos hc]
      by_cases hn : (s.get_cycle cycle).length < 2
      · rw [if_pos hn]
      · rw [if_neg hn]
        by_cases hw : pb > pc
        · rw [if_pos hw]
          have hperm := reverse_wrap_perm (s.get_cycle cycle) pb pc hw
          cases cycle
          · exact hperm.append_right _
          · exact hperm.append_left _
        · rw [if_neg hw]
          have hperm := reverse_mid_perm (s.get_cycle cycle) pb pc (Nat.le_of_not_lt hw)
          cases cycle
          · exact hperm.append_right _
          · exact hperm.append_left _
    · rw [if_neg hc]

/-- C2: `Move::apply` preserves the partition invariant: for every move and
every solution in which each node of the instance appears exactly once
across the two cycles, the applied solution still satisfies `is_valid`. -/
theorem c2_apply_preserves_validity (m : Move) (s : Solution) (n : Nat)
    (h : s.is_valid n = true) : (m.apply s).is_valid n = true := by
  rw [is_valid_iff_perm] at h ⊢
  exact (apply_perm m s).trans h

/-- Closed witness for `c2_apply_preserves_validity`: applying the
inter-route exchange of nodes 0 and 2 to the valid solution
`⟨[0,1],[2,3]⟩` keeps the invariant. -/
theorem c2_apply_preserves_validity_witness :
    Solution.is_valid ((Move.InterRouteExchange 0 2).apply ⟨[0, 1], [2, 3]⟩) 4 = true :=
  c2_apply_preserves_validity (Move.InterRouteExchange 0 2) ⟨[0, 1], [2, 3]⟩ 4 (by decide)

/-- The modelled distance is never negative. -/
theorem calculate_distance_nonneg (coords : List (Int × Int)) (i j : Nat) :
    0 ≤ calculate_distance coords i j := by
  unfold calculate_distance
  split
  · exact le_refl 0
  · exact Int.natCast_nonneg _

/-- With a non-negative distance oracle every cycle cost is non-negative. -/
theorem calculate_cycle_cost_nonneg (dist : Nat → Nat → Int)
    (hdist : ∀ i j, 0 ≤ dist i j) (l : List Nat) :
    0 ≤ calculate_cycle_cost dist l := by
  unfold calculate_cycle_cost
  split
  · exact le_refl 0
  · exact List.sum_nonneg (fun x hx => by
      obtain ⟨i, _, hi⟩ := List.mem_map.mp hx
      rw [← hi]
      exact hdist _ _)

/-- With a non-negative distance oracle every solution cost is
non-negative. -/
theorem calculate_cost_nonneg (dist : Nat → Nat → Int)
    (hdist : ∀ i j, 0 ≤ dist i j) (s : Solution) :
    0 ≤ s.calculate_cost dist :=
  add_nonneg (calculate_cycle_cost_nonneg dist hdist _)
    (calculate_cycle_cost_nonneg dist hdist _)

/-- Whenever one engine iteration continues the loop, the tracked cost
strictly decreased and (for a non-negative oracle) is non-negative: after
the integer mismatch check the tracked cost always equals the recomputed
true cost. -/
theorem solve_step_next_cost (variant : SearchVariant) (nb : NeighborhoodType)
    (dist : Nat → Nat → Int) (nearest : Nat → List Nat) (dim : Nat)
    (shuffle : Nat → List EvaluatedMove → List EvaluatedMove)
    (st st' : SearchState) (hdist : ∀ i j, 0 ≤ dist i j)
    (h : solve_step variant nb dist nearest dim shuffle st = StepResult.next st') :
    st'.cost < st.cost ∧ 0 ≤ st'.cost := by
  rcases hsel : select_move variant nb dist nearest dim shuffle st with _ | ⟨am, idx⟩ <;>
    simp only [solve_step, hsel] at h
  · cases h
  · by_cases hne : (am.move_type.apply st.solution).calculate_cost dist ≠ st.cost + am.delta
    · rw [if_pos hne] at h
      split at h
      · cases h
      · next hlt =>
        injection h with h'
        subst h'
        exact ⟨lt_of_not_ge hlt, calculate_cost_nonneg dist hdist _⟩
    · rw [if_neg hne] at h
      split at h
      · cases h
      · next hlt =>
        injection h with h'
        subst h'
        refine ⟨lt_of_not_ge hlt, ?_⟩
        show 0 ≤ st.cost + am.delta
        rw [← not_ne_iff.mp hne]
        exact calculate_cost_nonneg dist hdist _

/-- Fuel of `cost.toNat + 2` always suffices for the engine loop to reach
its break. -/
theorem solve_loop_isSome (variant : SearchVariant) (nb : NeighborhoodType)
    (dist : Nat → Nat → Int) (nearest : Nat → List Nat) (dim : Nat)
    (shuffle : Nat → List EvaluatedMove → List EvaluatedMove)
    (hdist : ∀ i j, 0 ≤ dist i j) :
    ∀ (fuel : Nat) (st : SearchState), st.cost.toNat + 2 ≤ fuel →
    (solve_loop variant nb dist nearest dim shuffle fuel st).isSome = true := by
  intro fuel
  induction fuel with
  | zero => intro st hst; omega
  | succ f ih =>
    intro st hst
    show (match solve_step variant nb dist nearest dim shuffle st with
      | StepResult.done solution cost => some (solution, cost)
      | StepResult.next st' =>
        solve_loop variant nb dist nearest dim shuffle f st').isSome = true
    split
    · rfl
    · next st' hstep =>
      obtain ⟨hdec, hnn⟩ :=
        solve_step_next_cost variant nb dist nearest dim shuffle st st' hdist hstep
      exact ih st' (by omega)

/-- C4: for every finite instance with a non-negative distance oracle and
every search variant, the engine loop terminates: running
`solve_with_feedback` with fuel `initial cost + 2` reaches the break of
the loop (a `some` result) rather than exhausting its fuel, so the loop
never cycles. -/
theorem c4_solver_terminates (variant : SearchVariant) (nb : NeighborhoodType)
    (dist : Nat → Nat → Int) (nearest : Nat → List Nat) (dim : Nat)
    (shuffle : Nat → List EvaluatedMove → List EvaluatedMove) (init : Solution)
    (hdist : ∀ i j, 0 ≤ dist i j) :
    (solve_with_feedback variant nb dist nearest dim shuffle init
      ((init.calculate_cost dist).toNat + 2)).isSome = true := by
  unfold solve_with_feedback
  exact solve_loop_isSome variant nb dist nearest dim shuffle hdist _ _ (le_refl _)

/-- Closed witness for `c4_solver_terminates`: the Steepest engine on a
concrete 4-node instance terminates within the cost-derived fuel. -/
theorem c4_solver_terminates_witness :
    (solve_with_feedback SearchVariant.Steepest NeighborhoodType.VertexExchange
      (calculate_distance [(0,0),(3,0),(0,4),(3,4)]) (fun _ => []) 4 (fun _ l => l)
      ⟨[0, 3], [1, 2]⟩
      (((Solution.mk [0, 3] [1, 2]).calculate_cost
        (calculate_distance [(0,0),(3,0),(0,4),(3,4)])).toNat + 2)).isSome = true :=
  c4_solver_terminates SearchVariant.Steepest NeighborhoodType.VertexExchange
    (calculate_distance [(0,0),(3,0),(0,4),(3,4)]) (fun _ => []) 4 (fun _ l => l)
    ⟨[0, 3], [1, 2]⟩
    (fun i j => calculate_distance_nonneg [(0,0),(3,0),(0,4),(3,4)] i j)

/-! Path-cost toolkit for the exact cost-change lemmas. -/

/-- Splitting a walk at an interior vertex splits its cost. -/
theorem pathCost_split (dist : Nat → Nat → Int) :
    ∀ (L : List Nat) (y : Nat) (Y : List Nat),
    pathCost dist (L ++ y :: Y) = pathCost dist (L ++ [y]) + pathCost dist (y :: Y)
  | [], y, Y => by simp [pathCost]
  | [a], y, Y => by simp [pathCost]
  | a :: b :: L, y, Y => by
    show dist a b + pathCost dist (b :: (L ++ y :: Y))
      = dist a b + pathCost dist (b :: (L ++ [y])) + pathCost dist (y :: Y)
    have h := pathCost_split dist (b :: L) y Y
    simp only [List.cons_append] at h
    rw [h]
    omega

/-- For a symmetric oracle, reversing a walk does not change its cost. -/
theorem pathCost_reverse (dist : Nat → Nat → Int)
    (hsym : ∀ i j, dist i j = dist j i) :
    ∀ (L : List Nat), pathCost dist L.reverse = pathCost dist L
  | [] => rfl
  | [_] => rfl
  | a :: b :: L => by
    have hshape : (a :: b :: L).reverse = L.reverse ++ b :: [a] := by simp
    rw [hshape, pathCost_split dist L.reverse b [a]]
    have hrev : L.reverse ++ [b] = (b :: L).reverse := by simp
    rw [hrev, pathCost_reverse dist hsym (b :: L)]
    show pathCost dist (b :: L) + (dist b a + 0) = dist a b + pathCost dist (b :: L)
    rw [hsym b a]
    omega

/-- Auxiliary sum identity behind the cycle-cost bridge. -/
theorem zipWith_shift_sum (dist : Nat → Nat → Int) :
    ∀ (t : List Nat) (b c : Nat),
    (List.zipWith dist (b :: t) (t ++ [c])).sum = pathCost dist ((b :: t) ++ [c])
  | [], b, c => by simp [pathCost]
  | a :: t, b, c => by
    show dist b a + (List.zipWith dist (a :: t) (t ++ [c])).sum
      = pathCost dist (b :: a :: (t ++ [c]))
    rw [zipWith_shift_sum dist t a c]
    show dist b a + pathCost dist (a :: (t ++ [c]))
      = dist b a + pathCost dist (a :: (t ++ [c]))
    rfl

/-- The indexed cycle-cost loop of the source equals the path cost of the
cycle closed back to its head. -/
theorem calculate_cycle_cost_eq_pathCost (dist : Nat → Nat → Int) (a : Nat) (t : List Nat) :
    calculate_cycle_cost dist (a :: t) = pathCost dist ((a :: t) ++ [a]) := by
  have hzip : calculate_cycle_cost dist (a :: t)
      = (List.zipWith dist (a :: t) ((a :: t).rotate 1)).sum := by
    unfold calculate_cycle_cost
    rw [if_neg (by simp)]
    congr 1
    apply List.ext_getElem
    · simp [List.length_rotate]
    · intro i h1 h2
      have hi : i < (a :: t).length := by simpa using h1
      have hmod : (i + 1) % (a :: t).length < (a :: t).length :=
        Nat.mod_lt _ (by simp)
      rw [List.getElem_map, List.getElem_range, List.getElem_zipWith,
        List.getD_eq_getElem _ _ hi, List.getD_eq_getElem _ _ hmod]
      congr 1
      rw [List.getElem_rotate]
  rw [hzip, List.rotate_cons_succ, List.rotate_zero]
  exact zipWith_shift_sum dist t a a

/-- Cycle cost is invariant under rotating the starting point (stated as
invariance under swapping the two halves of the list). -/
theorem calculate_cycle_cost_append_comm (dist : Nat → Nat → Int) (A B : List Nat) :
    calculate_cycle_cost dist (A ++ B) = calculate_cycle_cost dist (B ++ A) := by
  match A, B with
  | [], B => simp
  | A, [] => simp
  | a :: A', b :: B' =>
    show calculate_cycle_cost dist (a :: (A' ++ b :: B'))
      = calculate_cycle_cost dist (b :: (B' ++ a :: A'))
    rw [calculate_cycle_cost_eq_pathCost, calculate_cycle_cost_eq_pathCost]
    have h1 : (a :: (A' ++ b :: B')) ++ [a] = (a :: A') ++ b :: (B' ++ [a]) := by simp
    have h2 : (b :: (B' ++ a :: A')) ++ [b] = (b :: B') ++ a :: (A' ++ [b]) := by simp
    rw [h1, h2, pathCost_split dist (a :: A') b (B' ++ [a]),
      pathCost_split dist (b :: B') a (A' ++ [b])]
    have h3 : (a :: A') ++ [b] = a :: (A' ++ [b]) := by simp
    have h4 : (b :: B') ++ [a] = b :: (B' ++ [a]) := by simp
    rw [h3, h4]
    omega

theorem getLastD_append_right (X Y : List Nat) (d : Nat) (h : Y ≠ []) :
    (X ++ Y).getLastD d = Y.getLastD d := by
  rcases List.eq_nil_or_concat Y with rfl | ⟨L, b, rfl⟩
  · exact absurd rfl h
  · rw [List.concat_eq_append, ← List.append_assoc, List.getLastD_concat,
      List.getLastD_concat]

theorem getLastD_eq_getD (l : List Nat) (d : Nat) (h : l ≠ []) :
    l.getLastD d = l.getD (l.length - 1) d := by
  rcases List.eq_nil_or_concat l with rfl | ⟨L, b, rfl⟩
  · exact absurd rfl h
  · rw [List.concat_eq_append, List.getLastD_concat]
    rw [List.getD_eq_getElem _ _ (by simp)]
    rw [List.getElem_append_right (by simp)]
    simp

theorem headD_eq_getD (l : List Nat) (d : Nat) (h : l ≠ []) :
    l.headD d = l.getD 0 d := by
  cases l with
  | nil => exact absurd rfl h
  | cons a t => rfl

theorem headD_append_left (X Y : List Nat) (d : Nat) (h : X ≠ []) :
    (X ++ Y).headD d = X.headD d := by
  cases X with
  | nil => exact absurd rfl h
  | cons a t => rfl

theorem getD_take (l : List Nat) (p i : Nat) (hi : i < p) (hp : p ≤ l.length) :
    (l.take p).getD i 0 = l.getD i 0 := by
  have h1 : i < (l.take p).length := by rw [List.length_take]; omega
  rw [List.getD_eq_getElem _ _ h1, List.getD_eq_getElem _ _ (show i < l.length by omega),
    List.getElem_take]

theorem getD_drop (l : List Nat) (k i : Nat) (h : k + i < l.length) :
    (l.drop k).getD i 0 = l.getD (k + i) 0 := by
  have h1 : i < (l.drop k).length := by rw [List.length_drop]; omega
  rw [List.getD_eq_getElem _ _ h1, List.getD_eq_getElem _ _ h, List.getElem_drop]

/-- Exact cost change of replacing the head of a cycle `u :: W` by `v`:
the two incident edges (from the last element of `W` and to the first
element of `W`) are exchanged. -/
theorem cycle_cost_head_replace (dist : Nat → Nat → Int) (u v : Nat) (W : List Nat)
    (hW : W ≠ []) :
    calculate_cycle_cost dist (v :: W)
      = calculate_cycle_cost dist (u :: W)
        + (dist (W.getLastD 0) v + dist v (W.headD 0))
        - (dist (W.getLastD 0) u + dist u (W.headD 0)) := by
  rcases W with _ | ⟨w0, W'⟩
  · exact absurd rfl hW
  rcases List.eq_nil_or_concat W' with rfl | ⟨W'', wl, rfl⟩
  · rw [calculate_cycle_cost_eq_pathCost, calculate_cycle_cost_eq_pathCost]
    show dist v w0 + (dist w0 v + 0)
      = dist u w0 + (dist w0 u + 0) + (dist w0 v + dist v w0) - (dist w0 u + dist u w0)
    omega
  · rw [List.concat_eq_append,
      calculate_cycle_cost_eq_pathCost, calculate_cycle_cost_eq_pathCost]
    have hs : ∀ x : Nat, (x :: w0 :: (W'' ++ [wl])) ++ [x]
        = (x :: w0 :: W'') ++ wl :: [x] := by
      intro x
      simp
    rw [hs, hs, pathCost_split dist (v :: w0 :: W'') wl [v],
      pathCost_split dist (u :: w0 :: W'') wl [u]]
    have hlast : (w0 :: (W'' ++ [wl])).getLastD 0 = wl := by
      rw [show w0 :: (W'' ++ [wl]) = (w0 :: W'') ++ [wl] from rfl, List.getLastD_concat]
    rw [hlast]
    show dist v w0 + pathCost dist (w0 :: (W'' ++ [wl])) + (dist wl v + 0)
      = dist u w0 + pathCost dist (w0 :: (W'' ++ [wl])) + (dist wl u + 0)
        + (dist wl v + dist v w0) - (dist wl u + dist u w0)
    omega

/-- Exact cost change of overwriting one position of a cycle of length at
least 2: exactly the two incident edges change, with the neighbor
positions computed as the evaluators compute them. -/
theorem calculate_cycle_cost_set (dist : Nat → Nat → Int) (l : List Nat) (p v : Nat)
    (hlen : 2 ≤ l.length) (hp : p < l.length) :
    calculate_cycle_cost dist (l.set p v)
      = calculate_cycle_cost dist l
        + (dist (l.getD (if p = 0 then l.length - 1 else p - 1) 0) v
          + dist v (l.getD ((p + 1) % l.length) 0))
        - (dist (l.getD (if p = 0 then l.length - 1 else p - 1) 0) (l.getD p 0)
          + dist (l.getD p 0) (l.getD ((p + 1) % l.length) 0)) := by
  have hW : l.drop (p + 1) ++ l.take p ≠ [] := by
    have : (l.drop (p + 1) ++ l.take p).length = (l.length - (p + 1)) + min p l.length := by
      rw [List.length_append, List.length_drop, List.length_take]
    intro hcon
    rw [hcon] at this
    simp only [List.length_nil] at this
    omega
  have hdecomp : l = l.take p ++ l.getD p 0 :: l.drop (p + 1) := by
    rw [List.getD_eq_getElem _ _ hp]
    rw [List.getElem_cons_drop l p hp, List.take_append_drop]
  have hset : l.set p v = l.take p ++ v :: l.drop (p + 1) := by
    rw [List.set_eq_take_append_cons_drop, if_pos hp]
  have hrotate : ∀ x : Nat, calculate_cycle_cost dist (l.take p ++ x :: l.drop (p + 1))
      = calculate_cycle_cost dist (x :: (l.drop (p + 1) ++ l.take p)) := by
    intro x
    rw [calculate_cycle_cost_append_comm dist (l.take p) (x :: l.drop (p + 1))]
    rfl
  have hhead : (l.drop (p + 1) ++ l.take p).headD 0 = l.getD ((p + 1) % l.length) 0 := by
    by_cases hpn : p + 1 < l.length
    · have hdne : l.drop (p + 1) ≠ [] := by
        intro hcon
        have := congrArg List.length hcon
        rw [List.length_drop] at this
        simp only [List.length_nil] at this
        omega
      rw [headD_append_left _ _ _ hdne, Nat.mod_eq_of_lt hpn]
      rw [headD_eq_getD _ _ hdne, List.getD_eq_getElem _ _ (by
          rw [List.length_drop]; omega),
        List.getD_eq_getElem _ _ hpn, List.getElem_drop]
    · have hpe : p + 1 = l.length := by omega
      have hde : l.drop (p + 1) = [] := by
        rw [hpe, List.drop_length]
      rw [hde, List.nil_append, hpe, Nat.mod_self]
      have htne : l.take p ≠ [] := by
        intro hcon
        have := congrArg List.length hcon
        rw [List.length_take] at this
        simp only [List.length_nil] at this
        omega
      rw [headD_eq_getD _ _ htne, List.getD_eq_getElem _ _ (by
          rw [List.length_take]; omega),
        List.getD_eq_getElem _ _ (by omega), List.getElem_take]
  have hlast : (l.drop (p + 1) ++ l.take p).getLastD 0
      = l.getD (if p = 0 then l.length - 1 else p - 1) 0 := by
    by_cases hp0 : p = 0
    · subst hp0
      rw [if_pos rfl, List.take_zero, List.append_nil]
      have hdne : l.drop 1 ≠ [] := by
        intro hcon
        have := congrArg List.length hcon
        rw [List.length_drop] at this
        simp only [List.length_nil] at this
        omega
      rw [getLastD_eq_getD _ _ hdne, List.length_drop,
        getD_drop l 1 (l.length - 1 - 1) (by omega)]
      congr 1
      omega
    · rw [if_neg hp0]
      have htne : l.take p ≠ [] := by
        intro hcon
        have := congrArg List.length hcon
        rw [List.length_take] at this
        simp only [List.length_nil] at this
        omega
      rw [getLastD_append_right _ _ _ htne, getLastD_eq_getD _ _ htne,
        List.length_take, getD_take l p (min p l.length - 1) (by omega) (by omega)]
      congr 1
      omega
  rw [hset, hrotate v]
  rw [cycle_cost_head_replace dist (l.getD p 0) v _ hW, hhead, hlast]
  have hl : calculate_cycle_cost dist l
      = calculate_cycle_cost dist (l.getD p 0 :: (l.drop (p + 1) ++ l.take p)) := by
    conv_lhs => rw [hdecomp]
    exact hrotate (l.getD p 0)
  rw [hl]

theorem findIdx_self_of_nodup (l : List Nat) (p : Nat) (hp : p < l.length)
    (hnd : l.Nodup) : l.findIdx? (fun v => v == l[p]) = some p := by
  rw [List.findIdx?_eq_some_iff_getElem]
  refine ⟨hp, by simp, ?_⟩
  intro j hj
  simp only [beq_iff_eq]
  intro hbeq
  have := (List.Nodup.getElem_inj_iff hnd).mp hbeq
  omega

theorem findIdx_none_of_not_mem (l : List Nat) (x : Nat) (hx : x ∉ l) :
    l.findIdx? (fun v => v == x) = none := by
  rw [List.findIdx?_eq_none_iff]
  intro y hy
  simp only [beq_eq_false_iff_ne, ne_eq]
  intro hco
  exact hx (hco ▸ hy)

/-- A valid solution has duplicate-free, disjoint cycles. -/
theorem valid_nodup_disjoint (s : Solution) (n : Nat) (hv : s.is_valid n = true) :
    s.cycle1.Nodup ∧ s.cycle2.Nodup ∧ ∀ x ∈ s.cycle1, x ∉ s.cycle2 := by
  have hperm := (is_valid_iff_perm s n).mp hv
  have hnd : (s.cycle1 ++ s.cycle2).Nodup := hperm.symm.nodup (List.nodup_range n)
  obtain ⟨h1, h2, hdisj⟩ := List.nodup_append.mp hnd
  exact ⟨h1, h2, fun x hx hx2 => hdisj hx hx2⟩

/-- On duplicate-free cycles, `find_node` recovers the exact position of a
cycle1 element. -/
theorem find_node_c1_pos (s : Solution) (hnd1 : s.cycle1.Nodup) (p : Nat)
    (hp : p < s.cycle1.length) :
    s.find_node (s.cycle1[p]) = some (CycleId.Cycle1, p) := by
  unfold Solution.find_node
  rw [findIdx_self_of_nodup s.cycle1 p hp hnd1]

/-- On duplicate-free, disjoint cycles, `find_node` recovers the exact
position of a cycle2 element. -/
theorem find_node_c2_pos (s : Solution) (hnd2 : s.cycle2.Nodup)
    (hdisj : ∀ x ∈ s.cycle1, x ∉ s.cycle2) (p : Nat) (hp : p < s.cycle2.length) :
    s.find_node (s.cycle2[p]) = some (CycleId.Cycle2, p) := by
  have hnone : s.cycle1.findIdx? (fun v => v == s.cycle2[p]) = none :=
    findIdx_none_of_not_mem _ _ (fun hmem => hdisj _ hmem (List.getElem_mem hp))
  unfold Solution.find_node
  rw [hnone, findIdx_self_of_nodup s.cycle2 p hp hnd2]

/-- The inter-route evaluator is exact: on a valid solution with a
symmetric oracle, applying the returned move changes the true cost by
exactly the predicted delta (including the doubled-edge special cases
for cycles of length 2). -/
theorem evaluate_inter_route_exchange_exact (dist : Nat → Nat → Int)
    (hsym : ∀ i j, dist i j = dist j i)
    (s : Solution) (n : Nat) (hv : s.is_valid n = true)
    (pos1 pos2 : Nat) (em : EvaluatedMove)
    (heval : evaluate_inter_route_exchange dist s pos1 pos2 = some em) :
    (em.move_type.apply s).calculate_cost dist = s.calculate_cost dist + em.delta := by
  obtain ⟨hnd1, hnd2, hdisj⟩ := valid_nodup_disjoint s n hv
  cases em with
  | mk mv d =>
  dsimp only
  unfold evaluate_inter_route_exchange at heval
  by_cases hg1 : s.cycle1.length < 2 ∨ s.cycle2.length < 2
  · rw [if_pos hg1] at heval; cases heval
  rw [if_neg hg1] at heval
  by_cases hg2 : pos1 ≥ s.cycle1.length ∨ pos2 ≥ s.cycle2.length
  · rw [if_pos hg2] at heval; cases heval
  rw [if_neg hg2] at heval
  push_neg at hg1 hg2
  obtain ⟨hl1, hl2⟩ := hg1
  obtain ⟨hp1, hp2⟩ := hg2
  injection heval with h'
  rw [EvaluatedMove.mk.injEq] at h'
  obtain ⟨hmv, hd⟩ := h'
  subst hmv
  subst hd
  have hgu : s.cycle1.getD pos1 0 = s.cycle1[pos1] := List.getD_eq_getElem _ _ hp1
  have hgv : s.cycle2.getD pos2 0 = s.cycle2[pos2] := List.getD_eq_getElem _ _ hp2
  have hfind1 : s.find_node (s.cycle1.getD pos1 0) = some (CycleId.Cycle1, pos1) := by
    rw [hgu]; exact find_node_c1_pos s hnd1 pos1 hp1
  have hfind2 : s.find_node (s.cycle2.getD pos2 0) = some (CycleId.Cycle2, pos2) := by
    rw [hgv]; exact find_node_c2_pos s hnd2 hdisj pos2 hp2
  simp only [Move.apply, hfind1, hfind2, Solution.calculate_cost]
  rw [calculate_cycle_cost_set dist s.cycle1 pos1 (s.cycle2.getD pos2 0) hl1 hp1,
    calculate_cycle_cost_set dist s.cycle2 pos2 (s.cycle1.getD pos1 0) hl2 hp2]
  have h1l : (1:Nat) < s.cycle1.length := by omega
  have h2l : (1:Nat) < s.cycle2.length := by omega
  simp only [if_pos h1l, if_pos h2l]
  have hp1' : pos1 < s.cycle1.length := hp1
  have hp2' : pos2 < s.cycle2.length := hp2
  by_cases e1 : s.cycle1.length = 2 <;> by_cases e2 : s.cycle2.length = 2
  · rw [if_pos (show s.cycle1.length = 2 ∧ s.cycle2.length = 2 from ⟨e1, e2⟩)]
    rw [e1, e2]
    rw [e1] at hp1'
    rw [e2] at hp2'
    have hpn1 : (if pos1 = 0 then 2 - 1 else pos1 - 1) = (pos1 + 1) % 2 := by
      rcases (show pos1 = 0 ∨ pos1 = 1 by omega) with h | h <;> subst h <;> decide
    have hpn2 : (if pos2 = 0 then 2 - 1 else pos2 - 1) = (pos2 + 1) % 2 := by
      rcases (show pos2 = 0 ∨ pos2 = 1 by omega) with h | h <;> subst h <;> decide
    rw [hpn1, hpn2]
    have s1 := hsym (s.cycle2.getD pos2 0) (s.cycle1.getD ((pos1 + 1) % 2) 0)
    have s2 := hsym (s.cycle1.getD pos1 0) (s.cycle1.getD ((pos1 + 1) % 2) 0)
    have s3 := hsym (s.cycle1.getD pos1 0) (s.cycle2.getD ((pos2 + 1) % 2) 0)
    have s4 := hsym (s.cycle2.getD pos2 0) (s.cycle2.getD ((pos2 + 1) % 2) 0)
    omega
  · rw [if_neg (show ¬(s.cycle1.length = 2 ∧ s.cycle2.length = 2) from fun h => e2 h.2),
      if_pos e1]
    rw [e1]
    rw [e1] at hp1'
    have hpn1 : (if pos1 = 0 then 2 - 1 else pos1 - 1) = (pos1 + 1) % 2 := by
      rcases (show pos1 = 0 ∨ pos1 = 1 by omega) with h | h <;> subst h <;> decide
    rw [hpn1]
    have s1 := hsym (s.cycle2.getD pos2 0) (s.cycle1.getD ((pos1 + 1) % 2) 0)
    have s2 := hsym (s.cycle1.getD pos1 0) (s.cycle1.getD ((pos1 + 1) % 2) 0)
    omega
  · rw [if_neg (show ¬(s.cycle1.length = 2 ∧ s.cycle2.length = 2) from fun h => e1 h.1),
      if_neg e1, if_pos e2]
    rw [e2]
    rw [e2] at hp2'
    have hpn2 : (if pos2 = 0 then 2 - 1 else pos2 - 1) = (pos2 + 1) % 2 := by
      rcases (show pos2 = 0 ∨ pos2 = 1 by omega) with h | h <;> subst h <;> decide
    rw [hpn2]
    have s3 := hsym (s.cycle1.getD pos1 0) (s.cycle2.getD ((pos2 + 1) % 2) 0)
    have s4 := hsym (s.cycle2.getD pos2 0) (s.cycle2.getD ((pos2 + 1) % 2) 0)
    omega
  · rw [if_neg (show ¬(s.cycle1.length = 2 ∧ s.cycle2.length = 2) from fun h => e1 h.1),
      if_neg e1, if_neg e2]
    omega

theorem getD_set_self' (l : List Nat) (v : Nat) (x : Nat) (h : v < l.length) :
    (l.set v x).getD v 0 = x := by
  rw [List.getD_eq_getElem _ _ (by simpa using h), List.getElem_set, if_pos rfl]

theorem getD_set_ne' (l : List Nat) (v w : Nat) (x : Nat) (h : w ≠ v) :
    (l.set v x).getD w 0 = l.getD w 0 := by
  by_cases hw : w < l.length
  · rw [List.getD_eq_getElem _ _ (by simpa using hw), List.getD_eq_getElem _ _ hw,
      List.getElem_set, if_neg (fun hvw => h hvw.symm)]
  · rw [List.getD_eq_default _ _ (by simpa using Nat.le_of_not_lt hw),
      List.getD_eq_default _ _ (Nat.le_of_not_lt hw)]

theorem get_cycle_vec_eq (s : Solution) (cid : CycleId) :
    get_cycle_vec s cid = s.get_cycle cid := by
  cases cid <;> rfl

/-- Replacing one cycle shifts the total cost by the cycle-cost
difference. -/
theorem cost_set_cycle (s : Solution) (dist : Nat → Nat → Int) (cid : CycleId)
    (l : List Nat) :
    (s.set_cycle cid l).calculate_cost dist
      = s.calculate_cost dist
        + (calculate_cycle_cost dist l - calculate_cycle_cost dist (s.get_cycle cid)) := by
  cases cid <;>
    simp only [Solution.set_cycle, Solution.get_cycle, Solution.calculate_cost] <;> ring

/-- `find_node` of the element at position `p` of the designated cycle of
a duplicate-free disjoint solution. -/
theorem find_node_get_cycle (s : Solution) (hnd1 : s.cycle1.Nodup)
    (hnd2 : s.cycle2.Nodup) (hdisj : ∀ x ∈ s.cycle1, x ∉ s.cycle2)
    (cid : CycleId) (p : Nat) (hp : p < (s.get_cycle cid).length) :
    s.find_node ((s.get_cycle cid).getD p 0) = some (cid, p) := by
  cases cid
  · have hp' : p < s.cycle1.length := hp
    rw [show s.get_cycle CycleId.Cycle1 = s.cycle1 from rfl,
      List.getD_eq_getElem _ _ hp']
    exact find_node_c1_pos s hnd1 p hp'
  · have hp' : p < s.cycle2.length := hp
    rw [show s.get_cycle CycleId.Cycle2 = s.cycle2 from rfl,
      List.getD_eq_getElem _ _ hp']
    exact find_node_c2_pos s hnd2 hdisj p hp'

/-- Swapping the two vertices of a 2-cycle does not change its cost (the
two directed edges are merely exchanged). -/
theorem cc_swapPos_len2 (dist : Nat → Nat → Int) (l : List Nat) (h : l.length = 2) :
    calculate_cycle_cost dist (swapPos l 0 1) = calculate_cycle_cost dist l := by
  match l, h with
  | [a, b], _ =>
    show calculate_cycle_cost dist [b, a] = calculate_cycle_cost dist [a, b]
    exact calculate_cycle_cost_append_comm dist [b] [a]

/-- Exact cost change of swapping two adjacent positions of a cycle of
length at least 3. -/
theorem cc_swapPos_adj (dist : Nat → Nat → Int) (l : List Nat) (q1 q2 : Nat)
    (hadj : q2 = q1 + 1) (h2 : q2 < l.length) (h3 : 3 ≤ l.length) :
    calculate_cycle_cost dist (swapPos l q1 q2)
      = calculate_cycle_cost dist l
        + (dist (l.getD (if q1 = 0 then l.length - 1 else q1 - 1) 0) (l.getD q2 0)
          + dist (l.getD q2 0) (l.getD q1 0)
          + dist (l.getD q1 0) (l.getD ((q2 + 1) % l.length) 0))
        - (dist (l.getD (if q1 = 0 then l.length - 1 else q1 - 1) 0) (l.getD q1 0)
          + dist (l.getD q1 0) (l.getD q2 0)
          + dist (l.getD q2 0) (l.getD ((q2 + 1) % l.length) 0)) := by
  unfold swapPos
  rw [calculate_cycle_cost_set dist (l.set q1 (l.getD q2 0)) q2 (l.getD q1 0)
    (by rw [List.length_set]; omega) (by rw [List.length_set]; omega)]
  simp only [List.length_set]
  have hi2n : (q2 + 1) % l.length ≠ q1 := by
    rcases Nat.lt_or_ge (q2 + 1) l.length with hlt | hge
    · rw [Nat.mod_eq_of_lt hlt]; omega
    · have hq2n : q2 + 1 = l.length := by omega
      rw [hq2n, Nat.mod_self]
      omega
  have e1 : (l.set q1 (l.getD q2 0)).getD q2 0 = l.getD q2 0 :=
    getD_set_ne' _ _ _ _ (by omega)
  have hi2p : (if q2 = 0 then l.length - 1 else q2 - 1) = q1 := by
    rw [if_neg (by omega : ¬ q2 = 0)]
    omega
  have e2 : (l.set q1 (l.getD q2 0)).getD (if q2 = 0 then l.length - 1 else q2 - 1) 0
      = l.getD q2 0 := by
    rw [hi2p]
    exact getD_set_self' _ _ _ (by omega)
  have e3 : (l.set q1 (l.getD q2 0)).getD ((q2 + 1) % l.length) 0
      = l.getD ((q2 + 1) % l.length) 0 :=
    getD_set_ne' _ _ _ _ hi2n
  rw [e1, e2, e3]
  rw [calculate_cycle_cost_set dist l q1 (l.getD q2 0) (by omega) (by omega)]
  have hi1n : (q1 + 1) % l.length = q2 := by
    rw [Nat.mod_eq_of_lt (by omega)]
    omega
  rw [hi1n]
  omega

/-- Exact cost change of swapping the first and last positions of a cycle
of length at least 3. -/
theorem cc_swapPos_wrap (dist : Nat → Nat → Int) (l : List Nat) (q1 q2 : Nat)
    (hq1 : q1 = 0) (hq2 : q2 = l.length - 1) (h3 : 3 ≤ l.length) :
    calculate_cycle_cost dist (swapPos l q1 q2)
      = calculate_cycle_cost dist l
        + (dist (l.getD q1 0) (l.getD q2 0)
          + dist (l.getD q2 0) (l.getD ((q1 + 1) % l.length) 0)
          + dist (l.getD (if q2 = 0 then l.length - 1 else q2 - 1) 0) (l.getD q1 0))
        - (dist (l.getD q2 0) (l.getD q1 0)
          + dist (l.getD q1 0) (l.getD ((q1 + 1) % l.length) 0)
          + dist (l.getD (if q2 = 0 then l.length - 1 else q2 - 1) 0) (l.getD q2 0)) := by
  subst hq1
  subst hq2
  unfold swapPos
  rw [calculate_cycle_cost_set dist (l.set 0 (l.getD (l.length - 1) 0)) (l.length - 1)
    (l.getD 0 0) (by rw [List.length_set]; omega) (by rw [List.length_set]; omega)]
  simp only [List.length_set]
  have e1 : (l.set 0 (l.getD (l.length - 1) 0)).getD (l.length - 1) 0
      = l.getD (l.length - 1) 0 :=
    getD_set_ne' _ _ _ _ (by omega)
  have e2 : (l.set 0 (l.getD (l.length - 1) 0)).getD
      (if l.length - 1 = 0 then l.length - 1 else l.length - 1 - 1) 0
      = l.getD (if l.length - 1 = 0 then l.length - 1 else l.length - 1 - 1) 0 :=
    getD_set_ne' _ _ _ _ (by rw [if_neg (by omega : ¬ l.length - 1 = 0)]; omega)
  have hi2n : (l.length - 1 + 1) % l.length = 0 := by
    rw [show l.length - 1 + 1 = l.length from by omega, Nat.mod_self]
  have e3 : (l.set 0 (l.getD (l.length - 1) 0)).getD ((l.length - 1 + 1) % l.length) 0
      = l.getD (l.length - 1) 0 := by
    rw [hi2n]
    exact getD_set_self' _ _ _ (by omega)
  rw [e1, e2, e3]
  rw [calculate_cycle_cost_set dist l 0 (l.getD (l.length - 1) 0) (by omega) (by omega)]
  rw [if_pos rfl]
  omega

/-- Exact cost change of swapping two non-adjacent, non-wrapping positions
of a cycle. -/
theorem cc_swapPos_general (dist : Nat → Nat → Int) (l : List Nat) (q1 q2 : Nat)
    (h12 : q1 < q2) (h2 : q2 < l.length) (hnadj : q2 ≠ q1 + 1)
    (hnwrap : ¬(q1 = 0 ∧ q2 = l.length - 1)) :
    calculate_cycle_cost dist (swapPos l q1 q2)
      = calculate_cycle_cost dist l
        + (dist (l.getD (if q1 = 0 then l.length - 1 else q1 - 1) 0) (l.getD q2 0)
          + dist (l.getD q2 0) (l.getD ((q1 + 1) % l.length) 0)
          + dist (l.getD (if q2 = 0 then l.length - 1 else q2 - 1) 0) (l.getD q1 0)
          + dist (l.getD q1 0) (l.getD ((q2 + 1) % l.length) 0))
        - (dist (l.getD (if q1 = 0 then l.length - 1 else q1 - 1) 0) (l.getD q1 0)
          + dist (l.getD q1 0) (l.getD ((q1 + 1) % l.length) 0)
          + dist (l.getD (if q2 = 0 then l.length - 1 else q2 - 1) 0) (l.getD q2 0)
          + dist (l.getD q2 0) (l.getD ((q2 + 1) % l.length) 0)) := by
  unfold swapPos
  rw [calculate_cycle_cost_set dist (l.set q1 (l.getD q2 0)) q2 (l.getD q1 0)
    (by rw [List.length_set]; omega) (by rw [List.length_set]; omega)]
  simp only [List.length_set]
  have hi2n : (q2 + 1) % l.length ≠ q1 := by
    rcases Nat.lt_or_ge (q2 + 1) l.length with hlt | hge
    · rw [Nat.mod_eq_of_lt hlt]; omega
    · have hq2n : q2 + 1 = l.length := by omega
      rw [hq2n, Nat.mod_self]
      intro h0
      exact hnwrap ⟨h0.symm, by omega⟩
  have hi2p : (if q2 = 0 then l.length - 1 else q2 - 1) ≠ q1 := by
    rw [if_neg (by omega : ¬ q2 = 0)]
    omega
  have e1 : (l.set q1 (l.getD q2 0)).getD q2 0 = l.getD q2 0 :=
    getD_set_ne' _ _ _ _ (by omega)
  have e2 : (l.set q1 (l.getD q2 0)).getD (if q2 = 0 then l.length - 1 else q2 - 1) 0
      = l.getD (if q2 = 0 then l.length - 1 else q2 - 1) 0 :=
    getD_set_ne' _ _ _ _ hi2p
  have e3 : (l.set q1 (l.getD q2 0)).getD ((q2 + 1) % l.length) 0
      = l.getD ((q2 + 1) % l.length) 0 :=
    getD_set_ne' _ _ _ _ hi2n
  rw [e1, e2, e3]
  rw [calculate_cycle_cost_set dist l q1 (l.getD q2 0) (by omega) (by omega)]
  omega

/-- The vertex-exchange evaluator is order-insensitive in its two position
arguments. -/
theorem vertex_eval_comm (dist : Nat → Nat → Int) (s : Solution) (cyc : CycleId)
    (pos1 pos2 : Nat) :
    evaluate_intra_route_vertex_exchange dist s cyc pos1 pos2
      = evaluate_intra_route_vertex_exchange dist s cyc pos2 pos1 := by
  simp only [evaluate_intra_route_vertex_exchange]
  rw [min_comm pos1 pos2, max_comm pos1 pos2]
  exact if_congr (by constructor <;> (intro h; omega)) rfl rfl

/-- Core of the vertex-exchange exactness: for ordered positions, applying
the returned move either changes the cost by exactly the predicted delta
(cycles of length at least 3) or leaves it unchanged (the 2-cycle swap,
whose predicted delta is wrong, see `c1` below). -/
theorem vertex_apply_cost_of_lt (dist : Nat → Nat → Int) (s : Solution) (n : Nat)
    (hv : s.is_valid n = true) (cyc : CycleId) (pos1 pos2 : Nat) (h12 : pos1 < pos2)
    (em : EvaluatedMove)
    (heval : evaluate_intra_route_vertex_exchange dist s cyc pos1 pos2 = some em) :
    (em.move_type.apply s).calculate_cost dist = s.calculate_cost dist + em.delta
      ∨ (em.move_type.apply s).calculate_cost dist = s.calculate_cost dist := by
  obtain ⟨hnd1, hnd2, hdisj⟩ := valid_nodup_disjoint s n hv
  cases em with
  | mk mv d =>
  dsimp only
  simp only [evaluate_intra_route_vertex_exchange, get_cycle_vec_eq] at heval
  by_cases hg : pos1 = pos2 ∨ (s.get_cycle cyc).length < 2
      ∨ pos1 ≥ (s.get_cycle cyc).length ∨ pos2 ≥ (s.get_cycle cyc).length
  · rw [if_pos hg] at heval; cases heval
  rw [if_neg hg] at heval
  push_neg at hg
  obtain ⟨hne, hlen, hp1, hp2⟩ := hg
  rw [min_eq_left h12.le, max_eq_right h12.le] at heval
  have hfind1 : s.find_node ((s.get_cycle cyc).getD pos1 0) = some (cyc, pos1) :=
    find_node_get_cycle s hnd1 hnd2 hdisj cyc pos1 (by omega)
  have hfind2 : s.find_node ((s.get_cycle cyc).getD pos2 0) = some (cyc, pos2) :=
    find_node_get_cycle s hnd1 hnd2 hdisj cyc pos2 hp2
  by_cases hadj : pos2 = pos1 + 1
  · rw [if_pos hadj] at heval
    injection heval with h'
    rw [EvaluatedMove.mk.injEq] at h'
    obtain ⟨hmv, hd⟩ := h'
    subst hmv
    subst hd
    simp only [Move.apply, hfind1, hfind2, and_self, if_true]
    by_cases hn2 : (s.get_cycle cyc).length = 2
    · right
      have h0 : pos1 = 0 := by omega
      have h1 : pos2 = 1 := by omega
      subst h0
      subst h1
      rw [cost_set_cycle, cc_swapPos_len2 dist _ hn2]
      omega
    · left
      rw [cost_set_cycle,
        cc_swapPos_adj dist (s.get_cycle cyc) pos1 pos2 hadj hp2 (by omega)]
      omega
  · rw [if_neg hadj] at heval
    by_cases hwrap : pos1 = 0 ∧ pos2 = (s.get_cycle cyc).length - 1
    · rw [if_pos hwrap] at heval
      injection heval with h'
      rw [EvaluatedMove.mk.injEq] at h'
      obtain ⟨hmv, hd⟩ := h'
      subst hmv
      subst hd
      simp only [Move.apply, hfind1, hfind2, and_self, if_true]
      left
      rw [cost_set_cycle,
        cc_swapPos_wrap dist (s.get_cycle cyc) pos1 pos2 hwrap.1 hwrap.2 (by omega)]
      omega
    · rw [if_neg hwrap] at heval
      injection heval with h'
      rw [EvaluatedMove.mk.injEq] at h'
      obtain ⟨hmv, hd⟩ := h'
      subst hmv
      subst hd
      simp only [Move.apply, hfind1, hfind2, and_self, if_true]
      left
      rw [cost_set_cycle,
        cc_swapPos_general dist (s.get_cycle cyc) pos1 pos2 h12 hp2 hadj hwrap]
      omega

/-- The vertex-exchange evaluator against `Move::apply`: the predicted
delta is realised exactly, except on a cycle of length 2 where the true
cost is unchanged. -/
theorem evaluate_intra_route_vertex_exchange_apply_cost (dist : Nat → Nat → Int)
    (s : Solution) (n : Nat) (hv : s.is_valid n = true) (cyc : CycleId)
    (pos1 pos2 : Nat) (em : EvaluatedMove)
    (heval : evaluate_intra_route_vertex_exchange dist s cyc pos1 pos2 = some em) :
    (em.move_type.apply s).calculate_cost dist = s.calculate_cost dist + em.delta
      ∨ (em.move_type.apply s).calculate_cost dist = s.calculate_cost dist := by
  rcases Nat.lt_trichotomy pos1 pos2 with h | h | h
  · exact vertex_apply_cost_of_lt dist s n hv cyc pos1 pos2 h em heval
  · subst h
    simp only [evaluate_intra_route_vertex_exchange] at heval
    rw [if_pos (Or.inl trivial)] at heval
    cases heval
  · rw [vertex_eval_comm] at heval
    exact vertex_apply_cost_of_lt dist s n hv cyc pos2 pos1 h em heval

/-- Appending one vertex to a nonempty walk adds one closing step. -/
theorem pathCost_concat (dist : Nat → Nat → Int) :
    ∀ (X : List Nat) (y : Nat), X ≠ [] →
    pathCost dist (X ++ [y]) = pathCost dist X + dist (X.getLastD 0) y
  | [], _, h => absurd rfl h
  | [x], y, _ => by
    show dist x y + 0 = 0 + dist x y
    omega
  | x1 :: x2 :: X', y, _ => by
    show dist x1 x2 + pathCost dist (x2 :: (X' ++ [y]))
      = pathCost dist (x1 :: x2 :: X') + dist ((x1 :: x2 :: X').getLastD 0) y
    have h := pathCost_concat dist (x2 :: X') y (by simp)
    simp only [List.cons_append] at h
    rw [h]
    have hlast : (x1 :: x2 :: X').getLastD 0 = (x2 :: X').getLastD 0 := by
      rw [List.getLastD_eq_getLast?, List.getLastD_eq_getLast?, List.getLast?_cons_cons]
    rw [hlast]
    show dist x1 x2 + (pathCost dist (x2 :: X') + dist ((x2 :: X').getLastD 0) y)
      = dist x1 x2 + pathCost dist (x2 :: X') + dist ((x2 :: X').getLastD 0) y
    omega

/-- Cost of a walk through three nonempty stretches. -/
theorem pathCost_three (dist : Nat → Nat → Int) (X M Y : List Nat)
    (hX : X ≠ []) (hM : M ≠ []) (hY : Y ≠ []) :
    pathCost dist (X ++ M ++ Y)
      = pathCost dist X + dist (X.getLastD 0) (M.headD 0) + pathCost dist M
        + dist (M.getLastD 0) (Y.headD 0) + pathCost dist Y := by
  rcases M with _ | ⟨m0, M'⟩
  · exact absurd rfl hM
  rcases Y with _ | ⟨y0, Y'⟩
  · exact absurd rfl hY
  have hshape : (X ++ (m0 :: M')) ++ (y0 :: Y') = X ++ m0 :: (M' ++ y0 :: Y') := by simp
  rw [hshape, pathCost_split dist X m0 (M' ++ y0 :: Y'), pathCost_concat dist X m0 hX]
  have h2 : pathCost dist (m0 :: (M' ++ y0 :: Y'))
      = pathCost dist ((m0 :: M') ++ y0 :: Y') := rfl
  rw [h2, pathCost_split dist (m0 :: M') y0 Y',
    pathCost_concat dist (m0 :: M') y0 (by simp)]
  simp only [List.headD_cons]
  omega

/-- Reversing the middle stretch of a cycle exchanges exactly the two
boundary edges (for a symmetric oracle). -/
theorem cc_reverse_mid (dist : Nat → Nat → Int) (hsym : ∀ i j, dist i j = dist j i)
    (a : Nat) (A M B : List Nat) (hM : M ≠ []) :
    calculate_cycle_cost dist ((a :: A) ++ M.reverse ++ B)
      = calculate_cycle_cost dist ((a :: A) ++ M ++ B)
        + (dist ((a :: A).getLastD 0) (M.getLastD 0)
          + dist (M.headD 0) ((B ++ [a]).headD 0))
        - (dist ((a :: A).getLastD 0) (M.headD 0)
          + dist (M.getLastD 0) ((B ++ [a]).headD 0)) := by
  have hrev : M.reverse ≠ [] := by simpa using hM
  have hsh1 : (a :: A) ++ M.reverse ++ B = a :: (A ++ M.reverse ++ B) := by simp
  have hsh2 : (a :: A) ++ M ++ B = a :: (A ++ M ++ B) := by simp
  rw [hsh1, hsh2, calculate_cycle_cost_eq_pathCost, calculate_cycle_cost_eq_pathCost]
  have hsh3 : (a :: (A ++ M.reverse ++ B)) ++ [a]
      = (a :: A) ++ M.reverse ++ (B ++ [a]) := by simp
  have hsh4 : (a :: (A ++ M ++ B)) ++ [a] = (a :: A) ++ M ++ (B ++ [a]) := by simp
  rw [hsh3, hsh4,
    pathCost_three dist (a :: A) M.reverse (B ++ [a]) (by simp) hrev (by simp),
    pathCost_three dist (a :: A) M (B ++ [a]) (by simp) hM (by simp),
    pathCost_reverse dist hsym M]
  have hh : M.reverse.headD 0 = M.getLastD 0 := by
    rw [List.headD_eq_head?, List.head?_reverse, List.getLastD_eq_getLast?]
  have hl : M.reverse.getLastD 0 = M.headD 0 := by
    rw [List.getLastD_eq_getLast?, List.getLast?_reverse, List.headD_eq_head?]
  rw [hh, hl]
  omega

/-- Exact cost change of the linear (non-wrapping) 2-opt segment reversal:
only the two edges at the segment boundary change. -/
theorem cc_two_opt (dist : Nat → Nat → Int) (hsym : ∀ i j, dist i j = dist j i)
    (l : List Nat) (q1 q2 : Nat) (h12 : q1 + 1 < q2) (h2 : q2 < l.length) :
    calculate_cycle_cost dist
        (l.take (q1 + 1) ++ ((l.take (q2 + 1)).drop (q1 + 1)).reverse ++ l.drop (q2 + 1))
      = calculate_cycle_cost dist l
        + (dist (l.getD q1 0) (l.getD q2 0)
          + dist (l.getD (q1 + 1) 0) (l.getD ((q2 + 1) % l.length) 0))
        - (dist (l.getD q1 0) (l.getD (q1 + 1) 0)
          + dist (l.getD q2 0) (l.getD ((q2 + 1) % l.length) 0)) := by
  have htne : l.take (q1 + 1) ≠ [] := by
    intro hcon
    have := congrArg List.length hcon
    rw [List.length_take] at this
    simp only [List.length_nil] at this
    omega
  have hM : (l.take (q2 + 1)).drop (q1 + 1) ≠ [] := by
    intro hcon
    have := congrArg List.length hcon
    rw [List.length_drop, List.length_take] at this
    simp only [List.length_nil] at this
    omega
  have hMlen : ((l.take (q2 + 1)).drop (q1 + 1)).length = q2 - q1 := by
    rw [List.length_drop, List.length_take]
    omega
  have hdecomp : l = l.take (q1 + 1) ++ (l.take (q2 + 1)).drop (q1 + 1)
      ++ l.drop (q2 + 1) := by
    have h1 : l.take (q2 + 1) = l.take (q1 + 1) ++ (l.take (q2 + 1)).drop (q1 + 1) := by
      conv_lhs => rw [← List.take_append_drop (q1 + 1) (l.take (q2 + 1))]
      rw [List.take_take, Nat.min_eq_left (by omega)]
    calc l = l.take (q2 + 1) ++ l.drop (q2 + 1) := (List.take_append_drop _ l).symm
    _ = l.take (q1 + 1) ++ (l.take (q2 + 1)).drop (q1 + 1) ++ l.drop (q2 + 1) := by
      conv_lhs => rw [h1]
  have hlastA : (l.take (q1 + 1)).getLastD 0 = l.getD q1 0 := by
    rw [getLastD_eq_getD _ _ htne, List.length_take,
      getD_take l (q1 + 1) (min (q1 + 1) l.length - 1) (by omega) (by omega)]
    congr 1
    omega
  have hheadM : ((l.take (q2 + 1)).drop (q1 + 1)).headD 0 = l.getD (q1 + 1) 0 := by
    rw [headD_eq_getD _ _ hM,
      getD_drop (l.take (q2 + 1)) (q1 + 1) 0 (by rw [List.length_take]; omega),
      getD_take l (q2 + 1) (q1 + 1 + 0) (by omega) (by omega)]
  have hlastM : ((l.take (q2 + 1)).drop (q1 + 1)).getLastD 0 = l.getD q2 0 := by
    rw [getLastD_eq_getD _ _ hM, hMlen,
      getD_drop (l.take (q2 + 1)) (q1 + 1) (q2 - q1 - 1) (by rw [List.length_take]; omega),
      getD_take l (q2 + 1) (q1 + 1 + (q2 - q1 - 1)) (by omega) (by omega)]
    congr 1
    omega
  rcases hT : l.take (q1 + 1) with _ | ⟨a, A'⟩
  · exact absurd hT htne
  have hheadY : (l.drop (q2 + 1) ++ [a]).headD 0 = l.getD ((q2 + 1) % l.length) 0 := by
    rcases Nat.lt_or_ge (q2 + 1) l.length with hlt | hge
    · have hBne : l.drop (q2 + 1) ≠ [] := by
        intro hcon
        have := congrArg List.length hcon
        rw [List.length_drop] at this
        simp only [List.length_nil] at this
        omega
      rw [headD_append_left _ _ _ hBne, headD_eq_getD _ _ hBne,
        getD_drop l (q2 + 1) 0 (by omega), Nat.mod_eq_of_lt hlt]
    · have hq2n : q2 + 1 = l.length := by omega
      rw [hq2n, List.drop_length, List.nil_append, Nat.mod_self]
      have ha0 : a = l.getD 0 0 := by
        have h0 : (l.take (q1 + 1)).headD 0 = l.getD 0 0 := by
          rw [headD_eq_getD _ _ htne, getD_take l (q1 + 1) 0 (by omega) (by omega)]
        rw [hT] at h0
        simpa using h0
      simpa using ha0
  have hccl : calculate_cycle_cost dist l
      = calculate_cycle_cost dist
        ((a :: A') ++ (l.take (q2 + 1)).drop (q1 + 1) ++ l.drop (q2 + 1)) := by
    conv_lhs => rw [hdecomp, hT]
  rw [hccl,
    cc_reverse_mid dist hsym a A' ((l.take (q2 + 1)).drop (q1 + 1)) (l.drop (q2 + 1)) hM]
  have hlastA' : (a :: A').getLastD 0 = l.getD q1 0 := by
    rw [← hT]
    exact hlastA
  rw [hlastA', hheadM, hlastM, hheadY]

/-- The 2-opt application realises the edge evaluator's delta exactly:
core version for normalised positions `q1 < q2` with the first removed
edge not adjacent to the second. -/
theorem edge_core (dist : Nat → Nat → Int) (hsym : ∀ i j, dist i j = dist j i)
    (s : Solution) (n : Nat) (hv : s.is_valid n = true) (cyc : CycleId) (q1 q2 : Nat)
    (h12 : q1 < q2) (h2 : q2 < (s.get_cycle cyc).length)
    (h3 : 3 ≤ (s.get_cycle cyc).length)
    (hna1 : (q1 + 1) % (s.get_cycle cyc).length ≠ q2) :
    ((Move.IntraRouteEdgeExchange
        ((s.get_cycle cyc).getD q1 0)
        ((s.get_cycle cyc).getD ((q1 + 1) % (s.get_cycle cyc).length) 0)
        ((s.get_cycle cyc).getD q2 0)
        ((s.get_cycle cyc).getD ((q2 + 1) % (s.get_cycle cyc).length) 0)
        cyc).apply s).calculate_cost dist
      = s.calculate_cost dist
        + ((dist ((s.get_cycle cyc).getD q1 0) ((s.get_cycle cyc).getD q2 0)
            + dist ((s.get_cycle cyc).getD ((q1 + 1) % (s.get_cycle cyc).length) 0)
                ((s.get_cycle cyc).getD ((q2 + 1) % (s.get_cycle cyc).length) 0))
          - (dist ((s.get_cycle cyc).getD q1 0)
                ((s.get_cycle cyc).getD ((q1 + 1) % (s.get_cycle cyc).length) 0)
            + dist ((s.get_cycle cyc).getD q2 0)
                ((s.get_cycle cyc).getD ((q2 + 1) % (s.get_cycle cyc).length) 0))) := by
  obtain ⟨hnd1, hnd2, hdisj⟩ := valid_nodup_disjoint s n hv
  have hq1n : q1 + 1 < (s.get_cycle cyc).length := by omega
  have hm1 : (q1 + 1) % (s.get_cycle cyc).length = q1 + 1 := Nat.mod_eq_of_lt hq1n
  rw [hm1]
  rw [hm1] at hna1
  have hq12 : q1 + 1 < q2 := by omega
  have hfb : s.find_node ((s.get_cycle cyc).getD (q1 + 1) 0) = some (cyc, q1 + 1) :=
    find_node_get_cycle s hnd1 hnd2 hdisj cyc (q1 + 1) hq1n
  have hfc : s.find_node ((s.get_cycle cyc).getD q2 0) = some (cyc, q2) :=
    find_node_get_cycle s hnd1 hnd2 hdisj cyc q2 h2
  simp only [Move.apply, hfb, hfc, and_self, if_true]
  rw [if_neg (by omega : ¬ (s.get_cycle cyc).length < 2),
    if_neg (by omega : ¬ q1 + 1 > q2)]
  rw [cost_set_cycle,
    cc_two_opt dist hsym (s.get_cycle cyc) q1 q2 hq12 h2]
  omega

/-- The edge-exchange evaluator is exact: applying the returned 2-opt move
to a valid solution changes the true cost by exactly the predicted
delta (for a symmetric oracle). -/
theorem evaluate_intra_route_edge_exchange_exact (dist : Nat → Nat → Int)
    (hsym : ∀ i j, dist i j = dist j i) (s : Solution) (n : Nat)
    (hv : s.is_valid n = true) (cyc : CycleId) (pos1 pos2 : Nat) (em : EvaluatedMove)
    (heval : evaluate_intra_route_edge_exchange dist s cyc pos1 pos2 = some em) :
    (em.move_type.apply s).calculate_cost dist = s.calculate_cost dist + em.delta := by
  cases em with
  | mk mv d =>
  dsimp only
  simp only [evaluate_intra_route_edge_exchange, get_cycle_vec_eq] at heval
  by_cases hg : (s.get_cycle cyc).length < 3 ∨ pos1 = pos2
      ∨ (pos1 + 1) % (s.get_cycle cyc).length = pos2
      ∨ (pos2 + 1) % (s.get_cycle cyc).length = pos1
      ∨ pos1 ≥ (s.get_cycle cyc).length ∨ pos2 ≥ (s.get_cycle cyc).length
  · rw [if_pos hg] at heval; cases heval
  rw [if_neg hg] at heval
  push_neg at hg
  obtain ⟨h3, hne, hna1, hna2, hp1, hp2⟩ := hg
  rcases lt_or_gt_of_ne hne with hlt | hgt
  · simp only [if_pos hlt] at heval
    injection heval with h'
    rw [EvaluatedMove.mk.injEq] at h'
    obtain ⟨hmv, hd⟩ := h'
    subst hmv
    subst hd
    rw [edge_core dist hsym s n hv cyc pos1 pos2 hlt hp2 h3 hna1]
  · have hnlt : ¬ pos1 < pos2 := by omega
    simp only [if_neg hnlt] at heval
    injection heval with h'
    rw [EvaluatedMove.mk.injEq] at h'
    obtain ⟨hmv, hd⟩ := h'
    subst hmv
    subst hd
    rw [edge_core dist hsym s n hv cyc pos2 pos1 hgt hp1 h3 hna2]

theorem keepImproving_eq_some (o : Option EvaluatedMove) (em : EvaluatedMove)
    (h : keepImproving o = some em) : o = some em ∧ em.delta < 0 := by
  cases o with
  | none => cases h
  | some x =>
    simp only [keepImproving] at h
    by_cases hd : x.delta < 0
    · rw [if_pos hd] at h
      have hx := Option.some.inj h
      subst hx
      exact ⟨rfl, hd⟩
    · rw [if_neg hd] at h
      cases h

/-- The three-evaluator provenance of a move: it was produced, with its
delta, by one of the move evaluators run against the solution. -/
def from_evaluator (dist : Nat → Nat → Int) (s : Solution) (em : EvaluatedMove) : Prop :=
  (∃ p1 p2, evaluate_inter_route_exchange dist s p1 p2 = some em)
    ∨ (∃ cyc p1 p2, evaluate_intra_route_vertex_exchange dist s cyc p1 p2 = some em)
    ∨ (∃ cyc p1 p2, evaluate_intra_route_edge_exchange dist s cyc p1 p2 = some em)

/-- Every move of `generate_all_improving_moves` is improving and stems
from one of the three evaluators. -/
theorem mem_generate_all (dist : Nat → Nat → Int) (nb : NeighborhoodType)
    (s : Solution) (em : EvaluatedMove)
    (hm : em ∈ generate_all_improving_moves dist nb s) :
    em.delta < 0 ∧ from_evaluator dist s em := by
  unfold generate_all_improving_moves at hm
  rw [List.mem_append] at hm
  rcases hm with hm | hm
  · simp only [List.mem_flatMap, List.mem_filterMap] at hm
    obtain ⟨p1, _, p2, _, hm⟩ := hm
    obtain ⟨he, hd⟩ := keepImproving_eq_some _ _ hm
    exact ⟨hd, Or.inl ⟨p1, p2, he⟩⟩
  · simp only [List.mem_flatMap] at hm
    obtain ⟨cyc, _, hm⟩ := hm
    cases nb with
    | VertexExchange =>
      by_cases hn : (s.get_cycle cyc).length ≥ 2
      · rw [if_pos hn] at hm
        simp only [List.mem_flatMap, List.mem_filterMap] at hm
        obtain ⟨p1, _, p2, _, hm⟩ := hm
        obtain ⟨he, hd⟩ := keepImproving_eq_some _ _ hm
        exact ⟨hd, Or.inr (Or.inl ⟨cyc, p1, p2, he⟩)⟩
      · rw [if_neg hn] at hm
        cases hm
    | EdgeExchange =>
      by_cases hn : (s.get_cycle cyc).length ≥ 3
      · rw [if_pos hn] at hm
        simp only [List.mem_flatMap, List.mem_filterMap] at hm
        obtain ⟨p1, _, po, _, hm⟩ := hm
        by_cases hcond : (p1 < (p1 + po) % (s.get_cycle cyc).length
              ∨ (p1 + po) % (s.get_cycle cyc).length = 0 ∧ p1 = (s.get_cycle cyc).length - 1)
            ∧ ¬(p1 = 0 ∧ (p1 + po) % (s.get_cycle cyc).length = (s.get_cycle cyc).length - 1)
        · rw [if_pos hcond] at hm
          obtain ⟨he, hd⟩ := keepImproving_eq_some _ _ hm
          exact ⟨hd, Or.inr (Or.inr ⟨cyc, p1, (p1 + po) % (s.get_cycle cyc).length, he⟩)⟩
        · rw [if_neg hcond] at hm
          cases hm
      · rw [if_neg hn] at hm
        cases hm

/-- Every move of `generate_candidate_moves` is improving and stems from
one of the three evaluators. -/
theorem mem_generate_candidate (dist : Nat → Nat → Int) (nb : NeighborhoodType)
    (nearest : Nat → List Nat) (dim : Nat) (s : Solution) (em : EvaluatedMove)
    (hm : em ∈ generate_candidate_moves dist nb nearest dim s) :
    em.delta < 0 ∧ from_evaluator dist s em := by
  unfold generate_candidate_moves at hm
  simp only [List.mem_flatMap] at hm
  obtain ⟨na, _, hm⟩ := hm
  split at hm
  · cases hm
  rename_i ca pa hfa
  simp only [List.mem_filterMap] at hm
  obtain ⟨nb', _, hm⟩ := hm
  by_cases hab : na = nb'
  · rw [if_pos hab] at hm
    cases hm
  rw [if_neg hab] at hm
  split at hm
  · cases hm
  rename_i cb pb hfb
  by_cases hcc : ca ≠ cb
  · rw [if_pos hcc] at hm
    obtain ⟨he, hd⟩ := keepImproving_eq_some _ _ hm
    exact ⟨hd, Or.inl ⟨_, _, he⟩⟩
  · rw [if_neg hcc] at hm
    split at hm
    · obtain ⟨he, hd⟩ := keepImproving_eq_some _ _ hm
      unfold evaluate_candidate_intra_route_edge_exchange at he
      exact ⟨hd, Or.inr (Or.inr ⟨ca, _, _, he⟩)⟩
    · obtain ⟨he, hd⟩ := keepImproving_eq_some _ _ hm
      exact ⟨hd, Or.inr (Or.inl ⟨ca, pa, pb, he⟩)⟩

theorem min_fold_mem : ∀ (l : List EvaluatedMove) (acc : Option EvaluatedMove)
    (m : EvaluatedMove),
    l.foldl (fun acc m => match acc with
      | none => some m
      | some best => if m.delta < best.delta then some m else some best) acc = some m →
    acc = some m ∨ m ∈ l
  | [], _, _ => fun h => Or.inl h
  | x :: xs, acc, m => fun h => by
    rcases min_fold_mem xs _ m h with h' | h'
    · rcases acc with _ | best
      · have hx : x = m := Option.some.inj h'
        exact Or.inr (hx ▸ List.mem_cons_self x xs)
      · have h'' : (if x.delta < best.delta then some x else some best) = some m := h'
        by_cases hlt : x.delta < best.delta
        · rw [if_pos hlt] at h''
          have hx : x = m := Option.some.inj h''
          exact Or.inr (hx ▸ List.mem_cons_self x xs)
        · rw [if_neg hlt] at h''
          exact Or.inl h''
    · exact Or.inr (List.mem_cons_of_mem _ h')

/-- `min_by_key` returns an element of the list. -/
theorem min_by_delta_mem (l : List EvaluatedMove) (m : EvaluatedMove)
    (h : min_by_delta l = some m) : m ∈ l := by
  rcases min_fold_mem l none m h with h' | h'
  · cases h'
  · exact h'

/-- When an engine iteration selects a move (for the three freshly
generating variants), the move is improving and was produced by one of
the three evaluators on the current solution. -/
theorem select_move_provenance (variant : SearchVariant) (nb : NeighborhoodType)
    (dist : Nat → Nat → Int) (nearest : Nat → List Nat) (dim : Nat)
    (shuffle : Nat → List EvaluatedMove → List EvaluatedMove) (st : SearchState)
    (am : EvaluatedMove) (idx : Option Nat)
    (hvariant : variant ≠ SearchVariant.MoveListSteepest)
    (hsh : ∀ i l (m : EvaluatedMove), m ∈ shuffle i l → m ∈ l)
    (hsel : select_move variant nb dist nearest dim shuffle st = some (am, idx)) :
    am.delta < 0 ∧ from_evaluator dist st.solution am := by
  cases variant with
  | MoveListSteepest => exact absurd rfl hvariant
  | Steepest =>
    simp only [select_move] at hsel
    split at hsel
    · rename_i best hmin
      by_cases hbd : best.delta < 0
      · rw [if_pos hbd] at hsel
        have h' := Option.some.inj hsel
        rw [Prod.mk.injEq] at h'
        obtain ⟨h1, _⟩ := h'
        subst h1
        exact ⟨hbd, (mem_generate_all dist nb st.solution _
          (min_by_delta_mem _ _ hmin)).2⟩
      · rw [if_neg hbd] at hsel
        cases hsel
    · cases hsel
  | CandidateSteepest k =>
    simp only [select_move] at hsel
    split at hsel
    · rename_i best hmin
      by_cases hbd : best.delta < 0
      · rw [if_pos hbd] at hsel
        have h' := Option.some.inj hsel
        rw [Prod.mk.injEq] at h'
        obtain ⟨h1, _⟩ := h'
        subst h1
        exact ⟨hbd, (mem_generate_candidate dist nb nearest dim st.solution _
          (min_by_delta_mem _ _ hmin)).2⟩
      · rw [if_neg hbd] at hsel
        cases hsel
    · cases hsel
  | Greedy =>
    simp only [select_move] at hsel
    split at hsel
    · rename_i first hfind
      have h' := Option.some.inj hsel
      rw [Prod.mk.injEq] at h'
      obtain ⟨h1, _⟩ := h'
      subst h1
      have hp := List.find?_some hfind
      have hmem := hsh _ _ _ (List.mem_of_find?_eq_some hfind)
      exact ⟨by simpa using hp, (mem_generate_all dist nb st.solution _ hmem).2⟩
    · cases hsel

/-- Applying an improving move that stems from an evaluator never
increases the true cost of a valid solution (for a symmetric oracle):
the inter-route and 2-opt deltas are exact, and the vertex-exchange
delta is exact except on a 2-cycle where the true cost is unchanged. -/
theorem improving_apply_no_increase (dist : Nat → Nat → Int)
    (hsym : ∀ i j, dist i j = dist j i) (s : Solution) (n : Nat)
    (hv : s.is_valid n = true) (em : EvaluatedMove) (hd : em.delta < 0)
    (hsrc : from_evaluator dist s em) :
    (em.move_type.apply s).calculate_cost dist ≤ s.calculate_cost dist := by
  rcases hsrc with ⟨p1, p2, he⟩ | ⟨cyc, p1, p2, he⟩ | ⟨cyc, p1, p2, he⟩
  · rw [evaluate_inter_route_exchange_exact dist hsym s n hv p1 p2 em he]
    omega
  · rcases evaluate_intra_route_vertex_exchange_apply_cost dist s n hv cyc p1 p2 em he
        with h | h
    · rw [h]; omega
    · rw [h]
  · rw [evaluate_intra_route_edge_exchange_exact dist hsym s n hv cyc p1 p2 em he]
    omega

/-- Any solution a breaking iteration returns is the current solution or
one move applied to it. -/
theorem solve_step_done_solution (variant : SearchVariant) (nb : NeighborhoodType)
    (dist : Nat → Nat → Int) (nearest : Nat → List Nat) (dim : Nat)
    (shuffle : Nat → List EvaluatedMove → List EvaluatedMove) (st : SearchState)
    (sol : Solution) (c : Int)
    (h : solve_step variant nb dist nearest dim shuffle st = StepResult.done sol c) :
    sol = st.solution ∨ ∃ m : Move, sol = m.apply st.solution := by
  rcases hsel : select_move variant nb dist nearest dim shuffle st with _ | ⟨am, idx⟩ <;>
    simp only [solve_step, hsel] at h
  · injection h with h1 h2
    exact Or.inl h1.symm
  · by_cases hne : (am.move_type.apply st.solution).calculate_cost dist
        ≠ st.cost + am.delta
    · rw [if_pos hne] at h
      split at h
      · injection h with h1 h2
        exact Or.inr ⟨am.move_type, h1.symm⟩
      · cases h
    · rw [if_neg hne] at h
      split at h
      · injection h with h1 h2
        exact Or.inr ⟨am.move_type, h1.symm⟩
      · cases h

/-- Any solution a continuing iteration carries forward is one move
applied to the current one. -/
theorem solve_step_next_solution (variant : SearchVariant) (nb : NeighborhoodType)
    (dist : Nat → Nat → Int) (nearest : Nat → List Nat) (dim : Nat)
    (shuffle : Nat → List EvaluatedMove → List EvaluatedMove) (st st' : SearchState)
    (h : solve_step variant nb dist nearest dim shuffle st = StepResult.next st') :
    ∃ m : Move, st'.solution = m.apply st.solution := by
  rcases hsel : select_move variant nb dist nearest dim shuffle st with _ | ⟨am, idx⟩ <;>
    simp only [solve_step, hsel] at h
  · cases h
  · by_cases hne : (am.move_type.apply st.solution).calculate_cost dist
        ≠ st.cost + am.delta
    · rw [if_pos hne] at h
      split at h
      · cases h
      · injection h with h1
        subst h1
        exact ⟨am.move_type, rfl⟩
    · rw [if_neg hne] at h
      split at h
      · cases h
      · injection h with h1
        subst h1
        exact ⟨am.move_type, rfl⟩

/-- For the freshly generating variants, a breaking iteration returns a
cost equal to the true cost of the returned solution and no greater than
the tracked cost it started from. -/
theorem solve_step_done_invariant (variant : SearchVariant) (nb : NeighborhoodType)
    (dist : Nat → Nat → Int) (nearest : Nat → List Nat) (dim : Nat)
    (shuffle : Nat → List EvaluatedMove → List EvaluatedMove) (n : Nat)
    (st : SearchState) (hsym : ∀ i j, dist i j = dist j i)
    (hvariant : variant ≠ SearchVariant.MoveListSteepest)
    (hsh : ∀ i l (m : EvaluatedMove), m ∈ shuffle i l → m ∈ l)
    (hv : st.solution.is_valid n = true)
    (hc : st.cost = st.solution.calculate_cost dist) (sol : Solution) (c : Int)
    (h : solve_step variant nb dist nearest dim shuffle st = StepResult.done sol c) :
    c ≤ st.cost := by
  rcases hsel : select_move variant nb dist nearest dim shuffle st with _ | ⟨am, idx⟩ <;>
    simp only [solve_step, hsel] at h
  · injection h with h1 h2
    subst h2
    exact le_refl _
  · obtain ⟨hd, hsrc⟩ :=
      select_move_provenance variant nb dist nearest dim shuffle st am idx
        hvariant hsh hsel
    have hni := improving_apply_no_increase dist hsym st.solution n hv am hd hsrc
    by_cases hne : (am.move_type.apply st.solution).calculate_cost dist
        ≠ st.cost + am.delta
    · rw [if_pos hne] at h
      split at h
      · injection h with h1 h2
        subst h2
        rw [hc]
        exact hni
      · cases h
    · rw [if_neg hne] at h
      have heq := not_ne_iff.mp hne
      split at h
      · injection h with h1 h2
        subst h2
        rw [hc] at heq
        omega
      · cases h

/-- A continuing iteration keeps the tracked cost equal to the true cost
(the integer mismatch check corrects any divergence) and never raises it
(the loop's own non-decrease guard). -/
theorem solve_step_next_invariant (variant : SearchVariant) (nb : NeighborhoodType)
    (dist : Nat → Nat → Int) (nearest : Nat → List Nat) (dim : Nat)
    (shuffle : Nat → List EvaluatedMove → List EvaluatedMove)
    (st st' : SearchState)
    (h : solve_step variant nb dist nearest dim shuffle st = StepResult.next st') :
    st'.cost = st'.solution.calculate_cost dist ∧ st'.cost ≤ st.cost := by
  rcases hsel : select_move variant nb dist nearest dim shuffle st with _ | ⟨am, idx⟩ <;>
    simp only [solve_step, hsel] at h
  · cases h
  · by_cases hne : (am.move_type.apply st.solution).calculate_cost dist
        ≠ st.cost + am.delta
    · rw [if_pos hne] at h
      split at h
      · cases h
      · next hlt =>
        injection h with h1
        subst h1
        refine ⟨rfl, ?_⟩
        show (am.move_type.apply st.solution).calculate_cost dist ≤ st.cost
        omega
    · rw [if_neg hne] at h
      have heq := not_ne_iff.mp hne
      split at h
      · cases h
      · next hlt =>
        injection h with h1
        subst h1
        refine ⟨heq.symm, ?_⟩
        show st.cost + am.delta ≤ st.cost
        omega

/-- The engine loop preserves the partition invariant (every variant). -/
theorem solve_loop_valid (variant : SearchVariant) (nb : NeighborhoodType)
    (dist : Nat → Nat → Int) (nearest : Nat → List Nat) (dim : Nat)
    (shuffle : Nat → List EvaluatedMove → List EvaluatedMove) (n : Nat) :
    ∀ (fuel : Nat) (st : SearchState), st.solution.is_valid n = true →
    ∀ (sol : Solution) (c : Int),
    solve_loop variant nb dist nearest dim shuffle fuel st = some (sol, c) →
    sol.is_valid n = true := by
  intro fuel
  induction fuel with
  | zero => intro st _ sol c h; cases h
  | succ f ih =>
    intro st hv sol c h
    have h' : (match solve_step variant nb dist nearest dim shuffle st with
      | StepResult.done solution cost => some (solution, cost)
      | StepResult.next st' =>
        solve_loop variant nb dist nearest dim shuffle f st') = some (sol, c) := h
    cases hstep : solve_step variant nb dist nearest dim shuffle st with
    | done s' c' =>
      rw [hstep] at h'
      have hp := Option.some.inj h'
      rw [Prod.mk.injEq] at hp
      obtain ⟨h1, _⟩ := hp
      subst h1
      rcases solve_step_done_solution variant nb dist nearest dim shuffle st s' c' hstep
          with h2 | ⟨m, h2⟩
      · rw [h2]
        exact hv
      · rw [h2, is_valid_iff_perm]
        exact (apply_perm m st.solution).trans ((is_valid_iff_perm _ _).mp hv)
    | next st' =>
      rw [hstep] at h'
      obtain ⟨m, h2⟩ :=
        solve_step_next_solution variant nb dist nearest dim shuffle st st' hstep
      have hv' : st'.solution.is_valid n = true := by
        rw [h2, is_valid_iff_perm]
        exact (apply_perm m st.solution).trans ((is_valid_iff_perm _ _).mp hv)
      exact ih st' hv' sol c h'

/-- The engine loop never returns a cost above the tracked cost it was
started with (freshly generating variants). -/
theorem solve_loop_no_increase (variant : SearchVariant) (nb : NeighborhoodType)
    (dist : Nat → Nat → Int) (nearest : Nat → List Nat) (dim : Nat)
    (shuffle : Nat → List EvaluatedMove → List EvaluatedMove) (n : Nat)
    (hsym : ∀ i j, dist i j = dist j i)
    (hvariant : variant ≠ SearchVariant.MoveListSteepest)
    (hsh : ∀ i l (m : EvaluatedMove), m ∈ shuffle i l → m ∈ l) :
    ∀ (fuel : Nat) (st : SearchState), st.solution.is_valid n = true →
    st.cost = st.solution.calculate_cost dist →
    ∀ (sol : Solution) (c : Int),
    solve_loop variant nb dist nearest dim shuffle fuel st = some (sol, c) →
    c ≤ st.cost := by
  intro fuel
  induction fuel with
  | zero => intro st _ _ sol c h; cases h
  | succ f ih =>
    intro st hv hc sol c h
    have h' : (match solve_step variant nb dist nearest dim shuffle st with
      | StepResult.done solution cost => some (solution, cost)
      | StepResult.next st' =>
        solve_loop variant nb dist nearest dim shuffle f st') = some (sol, c) := h
    cases hstep : solve_step variant nb dist nearest dim shuffle st with
    | done s' c' =>
      rw [hstep] at h'
      have hp := Option.some.inj h'
      rw [Prod.mk.injEq] at hp
      obtain ⟨_, h2⟩ := hp
      subst h2
      exact solve_step_done_invariant variant nb dist nearest dim shuffle n st
        hsym hvariant hsh hv hc s' c' hstep
    | next st' =>
      rw [hstep] at h'
      obtain ⟨m, hsol'⟩ :=
        solve_step_next_solution variant nb dist nearest dim shuffle st st' hstep
      have hv' : st'.solution.is_valid n = true := by
        rw [hsol', is_valid_iff_perm]
        exact (apply_perm m st.solution).trans ((is_valid_iff_perm _ _).mp hv)
      obtain ⟨hc', hle⟩ :=
        solve_step_next_invariant variant nb dist nearest dim shuffle st st' hstep
      exact le_trans (ih st' hv' hc' sol c h') hle

/-- The modelled distance oracle is symmetric. -/
theorem calculate_distance_symm (coords : List (Int × Int)) (i j : Nat) :
    calculate_distance coords i j = calculate_distance coords j i := by
  unfold calculate_distance
  by_cases hij : i = j
  · rw [if_pos hij, if_pos hij.symm]
  · rw [if_neg hij, if_neg (fun h => hij h.symm)]
    show (roundSqrt ((((coords.getD j (0, 0)).1 - (coords.getD i (0, 0)).1)
          * ((coords.getD j (0, 0)).1 - (coords.getD i (0, 0)).1)
        + ((coords.getD j (0, 0)).2 - (coords.getD i (0, 0)).2)
          * ((coords.getD j (0, 0)).2 - (coords.getD i (0, 0)).2)).toNat) : Int)
      = (roundSqrt ((((coords.getD i (0, 0)).1 - (coords.getD j (0, 0)).1)
          * ((coords.getD i (0, 0)).1 - (coords.getD j (0, 0)).1)
        + ((coords.getD i (0, 0)).2 - (coords.getD j (0, 0)).2)
          * ((coords.getD i (0, 0)).2 - (coords.getD j (0, 0)).2)).toNat) : Int)
    have harg : ((coords.getD j (0, 0)).1 - (coords.getD i (0, 0)).1)
          * ((coords.getD j (0, 0)).1 - (coords.getD i (0, 0)).1)
        + ((coords.getD j (0, 0)).2 - (coords.getD i (0, 0)).2)
          * ((coords.getD j (0, 0)).2 - (coords.getD i (0, 0)).2)
      = ((coords.getD i (0, 0)).1 - (coords.getD j (0, 0)).1)
          * ((coords.getD i (0, 0)).1 - (coords.getD j (0, 0)).1)
        + ((coords.getD i (0, 0)).2 - (coords.getD j (0, 0)).2)
          * ((coords.getD i (0, 0)).2 - (coords.getD j (0, 0)).2) := by ring
    rw [harg]

/-- C3 (amended): on a valid initial solution with a symmetric oracle, any
result of `solve_with_feedback` still satisfies the partition invariant,
and for the three freshly generating variants (Steepest, Greedy with a
permuting shuffle, CandidateSteepest) its cost never exceeds the initial
solution's cost.  (The MoveListSteepest variant can return a strictly
worse solution, see the counterexample.) -/
theorem c3_solver_keeps_validity_never_worsens (variant : SearchVariant)
    (nb : NeighborhoodType) (dist : Nat → Nat → Int) (nearest : Nat → List Nat)
    (dim : Nat) (shuffle : Nat → List EvaluatedMove → List EvaluatedMove)
    (init : Solution) (fuel : Nat) (sol : Solution) (c : Int) (n : Nat)
    (hsym : ∀ i j, dist i j = dist j i)
    (hsh : ∀ i l (m : EvaluatedMove), m ∈ shuffle i l → m ∈ l)
    (hvinit : init.is_valid n = true)
    (hres : solve_with_feedback variant nb dist nearest dim shuffle init fuel
      = some (sol, c)) :
    sol.is_valid n = true
      ∧ (variant ≠ SearchVariant.MoveListSteepest → c ≤ init.calculate_cost dist) := by
  constructor
  · exact solve_loop_valid variant nb dist nearest dim shuffle n fuel _ hvinit sol c hres
  · intro hvariant
    exact solve_loop_no_increase variant nb dist nearest dim shuffle n hsym hvariant hsh
      fuel _ hvinit rfl sol c hres

/-- Closed witness for `c3_solver_keeps_validity_never_worsens`: the
Steepest engine on a concrete 4-node instance returns the valid solution
`⟨[3,0],[1,2]⟩` at cost 20, not above the initial cost. -/
theorem c3_solver_keeps_validity_never_worsens_witness :
    Solution.is_valid (Solution.mk [3, 0] [1, 2]) 4 = true
      ∧ (SearchVariant.Steepest ≠ SearchVariant.MoveListSteepest →
        (20 : Int) ≤ (Solution.mk [0, 3] [1, 2]).calculate_cost
          (calculate_distance [(0,0),(3,0),(0,4),(3,4)])) :=
  c3_solver_keeps_validity_never_worsens SearchVariant.Steepest
    NeighborhoodType.VertexExchange (calculate_distance [(0,0),(3,0),(0,4),(3,4)])
    (fun _ => []) 4 (fun _ l => l) ⟨[0, 3], [1, 2]⟩ 3 ⟨[3, 0], [1, 2]⟩ 20 4
    (fun i j => calculate_distance_symm [(0,0),(3,0),(0,4),(3,4)] i j)
    (fun _ _ _ h => h) (by decide) (by decide)

/-- The regeneration step of the move-list maintenance produces nothing:
the source body is a placeholder. -/
theorem generate_moves_around_nodes_nil (dist : Nat → Nat → Int) (s : Solution)
    (affected : List Nat) : generate_moves_around_nodes dist s affected = [] := by
  unfold generate_moves_around_nodes
  split <;> rfl

/-- C6 (amended): after the MoveListSteepest engine applies a move, the
maintenance block removes the applied entry by index and evicts every
remaining entry involving an affected node; the result is exactly that
filtered remainder, keeps the ascending-delta order and the freedom from
duplicate move identities, and no moves are regenerated around the
affected nodes, because `generate_moves_around_nodes` is a placeholder
returning the empty list. -/
theorem c6_move_list_maintenance (dist : Nat → Nat → Int)
    (move_list : List EvaluatedMove) (index : Nat) (applied : Move)
    (solution : Solution)
    (hsorted : move_list.Pairwise (fun a b => a.delta ≤ b.delta))
    (hnodup : (move_list.map (fun em => em.move_type)).Nodup) :
    update_move_list dist move_list index applied solution
        = (move_list.eraseIdx index).filter
            (fun m => ¬ move_involves_nodes m.move_type (identify_affected_nodes applied))
      ∧ (∀ em ∈ update_move_list dist move_list index applied solution,
          move_involves_nodes em.move_type (identify_affected_nodes applied) = false)
      ∧ (update_move_list dist move_list index applied solution).Pairwise
          (fun a b => a.delta ≤ b.delta)
      ∧ ((update_move_list dist move_list index applied solution).map
          (fun em => em.move_type)).Nodup
      ∧ generate_moves_around_nodes dist solution (identify_affected_nodes applied)
          = [] := by
  have hupd : update_move_list dist move_list index applied solution
      = (move_list.eraseIdx index).filter
          (fun m => ¬ move_involves_nodes m.move_type (identify_affected_nodes applied)) := by
    simp only [update_move_list]
    rw [generate_moves_around_nodes_nil]
    rfl
  have hsub : List.Sublist
      ((move_list.eraseIdx index).filter
        (fun m => ¬ move_involves_nodes m.move_type (identify_affected_nodes applied)))
      move_list :=
    (List.filter_sublist (move_list.eraseIdx index)).trans
      (move_list.eraseIdx_sublist index)
  refine ⟨hupd, ?_, ?_, ?_, generate_moves_around_nodes_nil dist solution _⟩
  · intro em hem
    rw [hupd] at hem
    have hf := (List.mem_filter.mp hem).2
    simpa using of_decide_eq_true hf
  · rw [hupd]
    exact hsorted.sublist hsub
  · rw [hupd]
    exact hnodup.sublist (hsub.map (fun em => em.move_type))

/-- Closed witness for `c6_move_list_maintenance` on a concrete two-entry
list: applying its head evicts the head (by index) and the second entry
(it shares node 1 with the applied move), nothing is regenerated, and the
surviving list (empty here) trivially keeps order and uniqueness. -/
theorem c6_move_list_maintenance_witness :
    update_move_list (fun _ _ => 0)
        [⟨Move.InterRouteExchange 0 1, -2⟩, ⟨Move.InterRouteExchange 1 2, -1⟩] 0
        (Move.InterRouteExchange 0 1) ⟨[0, 2], [1, 3]⟩
        = ([⟨Move.InterRouteExchange 0 1, -2⟩,
            ⟨Move.InterRouteExchange 1 2, -1⟩].eraseIdx 0).filter
            (fun m => ¬ move_involves_nodes m.move_type
              (identify_affected_nodes (Move.InterRouteExchange 0 1)))
      ∧ (∀ em ∈ update_move_list (fun _ _ => 0)
            [⟨Move.InterRouteExchange 0 1, -2⟩, ⟨Move.InterRouteExchange 1 2, -1⟩] 0
            (Move.InterRouteExchange 0 1) ⟨[0, 2], [1, 3]⟩,
          move_involves_nodes em.move_type
            (identify_affected_nodes (Move.InterRouteExchange 0 1)) = false)
      ∧ (update_move_list (fun _ _ => 0)
            [⟨Move.InterRouteExchange 0 1, -2⟩, ⟨Move.InterRouteExchange 1 2, -1⟩] 0
            (Move.InterRouteExchange 0 1) ⟨[0, 2], [1, 3]⟩).Pairwise
          (fun a b => a.delta ≤ b.delta)
      ∧ ((update_move_list (fun _ _ => 0)
            [⟨Move.InterRouteExchange 0 1, -2⟩, ⟨Move.InterRouteExchange 1 2, -1⟩] 0
            (Move.InterRouteExchange 0 1) ⟨[0, 2], [1, 3]⟩).map
          (fun em => em.move_type)).Nodup
      ∧ generate_moves_around_nodes (fun _ _ => 0) ⟨[0, 2], [1, 3]⟩
          (identify_affected_nodes (Move.InterRouteExchange 0 1)) = [] :=
  c6_move_list_maintenance (fun _ _ => 0)
    [⟨Move.InterRouteExchange 0 1, -2⟩, ⟨Move.InterRouteExchange 1 2, -1⟩] 0
    (Move.InterRouteExchange 0 1) ⟨[0, 2], [1, 3]⟩
    (by decide) (by decide)

/-- A filter by a downward-closed predicate keeps an initial segment of
`range`. -/
theorem filter_range_antitone (p : Nat → Bool)
    (hmono : ∀ i j, i ≤ j → p j = true → p i = true) :
    ∀ N, (List.range N).filter p = List.range ((List.range N).filter p).length
  | 0 => rfl
  | N + 1 => by
    rw [List.range_succ, List.filter_append]
    by_cases hN : p N = true
    · have hall : ∀ i ∈ List.range N, p i = true := fun i hi =>
        hmono i N (le_of_lt (List.mem_range.mp hi)) hN
      have hsing : List.filter p [N] = [N] := by simp [hN]
      rw [List.filter_eq_self.mpr hall, hsing]
      have hlen : (List.range N ++ [N]).length = N + 1 := by simp
      rw [hlen, List.range_succ]
    · have hnil : List.filter p [N] = [] := by simp [hN]
      rw [hnil, List.append_nil]
      exact filter_range_antitone p hmono N

/-- Index characterization of the half-integer count behind `roundSqrt`:
the counted predicate holds exactly below the count. -/
theorem roundSqrt_char (n : Nat) : ∀ i, i < n + 1 →
    ((2 * i + 1) * (2 * i + 1) ≤ 4 * n ↔ i < roundSqrt n) := by
  have hmono : ∀ i j, i ≤ j →
      (fun i => decide ((2 * i + 1) * (2 * i + 1) ≤ 4 * n)) j = true →
      (fun i => decide ((2 * i + 1) * (2 * i + 1) ≤ 4 * n)) i = true := by
    intro i j hij hj
    have hj' := of_decide_eq_true hj
    exact decide_eq_true (le_trans
      (Nat.mul_le_mul (by omega) (by omega)) hj')
  have hfil := filter_range_antitone
    (fun i => decide ((2 * i + 1) * (2 * i + 1) ≤ 4 * n)) hmono (n + 1)
  intro i hi
  constructor
  · intro hle
    have hm : i ∈ (List.range (n + 1)).filter
        (fun i => decide ((2 * i + 1) * (2 * i + 1) ≤ 4 * n)) :=
      List.mem_filter.mpr ⟨List.mem_range.mpr hi, decide_eq_true hle⟩
    rw [hfil] at hm
    exact List.mem_range.mp hm
  · intro hlt
    have hm : i ∈ List.range ((List.range (n + 1)).filter
        (fun i => decide ((2 * i + 1) * (2 * i + 1) ≤ 4 * n))).length :=
      List.mem_range.mpr hlt
    rw [← hfil] at hm
    exact of_decide_eq_true (List.mem_filter.mp hm).2

/-- The count never exceeds `n`. -/
theorem roundSqrt_le (n : Nat) : roundSqrt n ≤ n := by
  by_contra hgt
  have hle := (roundSqrt_char n n (by omega)).mpr (by omega)
  nlinarith

/-- Upper bracketing of the count: `4 n < (2 roundSqrt n + 1)^2`. -/
theorem roundSqrt_upper (n : Nat) :
    4 * n < (2 * roundSqrt n + 1) * (2 * roundSqrt n + 1) := by
  have hm := roundSqrt_le n
  have := roundSqrt_char n (roundSqrt n) (by omega)
  by_contra hcon
  have hlt := this.mp (by omega)
  omega

/-- Lower bracketing of the count: `(2 roundSqrt n - 1)^2 ≤ 4 n` once the
count is positive. -/
theorem roundSqrt_lower (n : Nat) (h : 1 ≤ roundSqrt n) :
    (2 * roundSqrt n - 1) * (2 * roundSqrt n - 1) ≤ 4 * n := by
  have hm := roundSqrt_le n
  have hch := (roundSqrt_char n (roundSqrt n - 1) (by omega)).mpr (by omega)
  have harg : 2 * (roundSqrt n - 1) + 1 = 2 * roundSqrt n - 1 := by omega
  rwa [harg] at hch

/-- `roundSqrt` is exactly the rounding of the real square root: the
count-based rendering agrees with `round (Real.sqrt n)` on every natural
number. -/
theorem roundSqrt_eq_round_real_sqrt (n : Nat) :
    (roundSqrt n : Int) = round (Real.sqrt n) := by
  have hupper := roundSqrt_upper n
  symm
  rw [round_eq, Int.floor_eq_iff]
  constructor
  · by_cases hm : roundSqrt n = 0
    · rw [hm]
      have := Real.sqrt_nonneg (n : ℝ)
      push_cast
      linarith
    · have h1 : 1 ≤ roundSqrt n := by omega
      have hlow := roundSqrt_lower n h1
      have hcastlow : (2 * (roundSqrt n : ℝ) - 1) ^ 2 ≤ 4 * (n : ℝ) := by
        have := (Nat.cast_le (α := ℝ)).mpr hlow
        push_cast [Nat.cast_sub (by omega : 1 ≤ 2 * roundSqrt n)] at this
        nlinarith
      have h2 : ((roundSqrt n : ℝ) - 1 / 2) ^ 2 ≤ (n : ℝ) := by nlinarith
      have h3 : ((roundSqrt n : ℝ) - 1 / 2) ≤ Real.sqrt n := by
        refine (Real.le_sqrt ?_ (by positivity)).mpr h2
        have : (1 : ℝ) ≤ (roundSqrt n : ℝ) := by exact_mod_cast h1
        linarith
      push_cast
      linarith
  · have hcast : 4 * (n : ℝ) < (2 * (roundSqrt n : ℝ) + 1) ^ 2 := by
      have := (Nat.cast_lt (α := ℝ)).mpr hupper
      push_cast at this
      nlinarith
    have h2 : (n : ℝ) < ((roundSqrt n : ℝ) + 1 / 2) ^ 2 := by nlinarith
    have h3 : Real.sqrt n < (roundSqrt n : ℝ) + 1 / 2 :=
      (Real.sqrt_lt' (by positivity)).mpr h2
    push_cast
    linarith

/-- C1 (counterexample to the code's delta arithmetic): on the valid
4-node solution `⟨[0,1],[2,3]⟩` over collinear coordinates, the
vertex-exchange evaluation of the two positions of the length-2 cycle1
predicts a delta of `-6`, yet applying the returned move (swapping the
two vertices of a 2-cycle) provably leaves the recomputed total cost
unchanged: the predicted delta and the true cost change differ at the
length-2 boundary case the claim includes. -/
theorem c1_vertex_len2_delta_wrong :
    Solution.is_valid ⟨[0, 1], [2, 3]⟩ 4 = true
    ∧ evaluate_intra_route_vertex_exchange
        (calculate_distance [(0,0),(3,0),(10,0),(13,0)]) ⟨[0, 1], [2, 3]⟩
        CycleId.Cycle1 0 1
      = some ⟨Move.IntraRouteVertexExchange 0 1 CycleId.Cycle1, -6⟩
    ∧ (Move.IntraRouteVertexExchange 0 1 CycleId.Cycle1).apply ⟨[0, 1], [2, 3]⟩
      = ⟨[1, 0], [2, 3]⟩
    ∧ Solution.calculate_cost ⟨[1, 0], [2, 3]⟩
          (calculate_distance [(0,0),(3,0),(10,0),(13,0)])
        - Solution.calculate_cost ⟨[0, 1], [2, 3]⟩
          (calculate_distance [(0,0),(3,0),(10,0),(13,0)]) = 0
    ∧ (-6 : Int) ≠ 0 := by decide

/-- C5 (counterexample): the constructor written in
`evaluate_inter_route_exchange` stores the position arguments, not the
identities of the nodes it touches.  On the valid solution
`⟨[3,0],[1,2]⟩`, evaluating positions `(0,0)` touches nodes `3` and `1`,
but the move as written carries `InterRouteExchange 0 0`; `Move::apply`
then resolves those payloads as node ids, finds node `0` twice in
cycle1, and performs no exchange at all, so the recomputed cost change
is `0` instead of the predicted `-4`. -/
theorem c5_constructor_stores_positions :
    Solution.is_valid ⟨[3, 0], [1, 2]⟩ 4 = true
    ∧ evaluate_inter_route_exchange_as_written
        (calculate_distance [(0,0),(1,0),(2,0),(3,0)]) ⟨[3, 0], [1, 2]⟩ 0 0
      = some ⟨Move.InterRouteExchange 0 0, -4⟩
    ∧ (Solution.cycle1 ⟨[3, 0], [1, 2]⟩).getD 0 0 = 3
    ∧ (Solution.cycle2 ⟨[3, 0], [1, 2]⟩).getD 0 0 = 1
    ∧ (Move.InterRouteExchange 0 0).apply ⟨[3, 0], [1, 2]⟩ = ⟨[3, 0], [1, 2]⟩
    ∧ (evaluate_inter_route_exchange
        (calculate_distance [(0,0),(1,0),(2,0),(3,0)]) ⟨[3, 0], [1, 2]⟩ 0 0).map
          (fun em => em.move_type)
      = some (Move.InterRouteExchange 3 1) := by decide

/-- C7: whenever `Move::apply` cannot locate a referenced node in the
cycle(s) the move's definition requires, the solution is left completely
unchanged, and in particular the partition invariant is intact. -/
theorem c7_stale_apply_is_noop (m : Move) (s : Solution) (n : Nat)
    (h : move_targets_located m s = false) :
    m.apply s = s ∧ (s.is_valid n = true → (m.apply s).is_valid n = true) := by
  have happ : m.apply s = s := by
    cases m with
    | InterRouteExchange v1 v2 =>
      rcases h1 : s.find_node v1 with _ | ⟨c1, p1⟩ <;>
        rcases h2 : s.find_node v2 with _ | ⟨c2, p2⟩ <;>
        simp only [move_targets_located, h1, h2] at h <;>
        simp only [Move.apply, h1, h2] <;>
        try rfl
      cases c1 <;> cases c2 <;> simp_all
    | IntraRouteVertexExchange v1 v2 cycle =>
      rcases h1 : s.find_node v1 with _ | ⟨c1, p1⟩ <;>
        rcases h2 : s.find_node v2 with _ | ⟨c2, p2⟩ <;>
        simp only [move_targets_located, h1, h2] at h <;>
        simp only [Move.apply, h1, h2] <;>
        try rfl
      rw [if_neg]
      simp only [decide_eq_false_iff_not] at h
      exact h
    | IntraRouteEdgeExchange a b c d cycle =>
      rcases h1 : s.find_node b with _ | ⟨cb, pb⟩ <;>
        rcases h2 : s.find_node c with _ | ⟨cc, pc⟩ <;>
        simp only [move_targets_located, h1, h2] at h <;>
        simp only [Move.apply, h1, h2] <;>
        try rfl
      rw [if_neg]
      simp only [decide_eq_false_iff_not] at h
      exact h
  exact ⟨happ, fun hv => by rw [happ]; exact hv⟩

/-- Closed witness for `c7_stale_apply_is_noop`: the stale move
`InterRouteExchange 0 1` (both nodes sit in cycle1) leaves
`⟨[0,1],[2,3]⟩` unchanged. -/
theorem c7_stale_apply_is_noop_witness :
    (Move.InterRouteExchange 0 1).apply ⟨[0, 1], [2, 3]⟩ = ⟨[0, 1], [2, 3]⟩
    ∧ (Solution.is_valid ⟨[0, 1], [2, 3]⟩ 4 = true →
        Solution.is_valid ((Move.InterRouteExchange 0 1).apply ⟨[0, 1], [2, 3]⟩) 4 = true) :=
  c7_stale_apply_is_noop (Move.InterRouteExchange 0 1) ⟨[0, 1], [2, 3]⟩ 4 (by decide)

/-- C8 (counterexample): on an instance with duplicate coordinates the
distance between the two distinct nodes `0` and `1` is `0`, so the
zero-iff-equal part of the claim fails. -/
theorem c8_zero_off_diagonal :
    calculate_distance [(1, 2), (1, 2)] 0 1 = 0 ∧ (0 : Nat) ≠ 1 := by decide

/-- C8 (amended): the distance is zero on the diagonal, symmetric and
non-negative; zero does not imply equality, because the rounded distance
of two distinct nodes can vanish (the duplicate-coordinate
counterexample above; over the source's full `f64` coordinate domain,
which this embedding narrows to integer pairs, any two points less than
half a unit apart also round to `0`). -/
theorem c8_distance_props (coords : List (Int × Int)) (i j : Nat) :
    calculate_distance coords i i = 0
    ∧ calculate_distance coords i j = calculate_distance coords j i
    ∧ 0 ≤ calculate_distance coords i j := by
  refine ⟨by simp [calculate_distance], ?_, ?_⟩
  · by_cases hij : i = j
    · subst hij; rfl
    · simp only [calculate_distance, if_neg hij, if_neg (Ne.symm hij)]
      have harg : ((coords.getD j (0,0)).1 - (coords.getD i (0,0)).1)
            * ((coords.getD j (0,0)).1 - (coords.getD i (0,0)).1)
          + ((coords.getD j (0,0)).2 - (coords.getD i (0,0)).2)
            * ((coords.getD j (0,0)).2 - (coords.getD i (0,0)).2)
          = ((coords.getD i (0,0)).1 - (coords.getD j (0,0)).1)
            * ((coords.getD i (0,0)).1 - (coords.getD j (0,0)).1)
          + ((coords.getD i (0,0)).2 - (coords.getD j (0,0)).2)
            * ((coords.getD i (0,0)).2 - (coords.getD j (0,0)).2) := by ring
      rw [harg]
  · unfold calculate_distance
    split
    · exact le_refl 0
    · exact Int.natCast_nonneg _

/-- C3 (counterexample): on the 6-node instance `mlCoords` with the valid
initial solution `mlInit` of cost 38, the MoveListSteepest engine
converges and returns a solution of cost 39: a stale second list entry
(its delta computed against the initial solution) is still valid when
its turn comes, its application increases the true cost, and the loop
then breaks, returning a solution strictly worse than the initial one. -/
theorem c3_movelist_can_return_worse_than_initial :
    Solution.is_valid mlInit 6 = true
    ∧ solve_with_feedback SearchVariant.MoveListSteepest NeighborhoodType.VertexExchange
        (calculate_distance mlCoords) (fun _ => []) 6 (fun _ l => l) mlInit 40
      = some (⟨[3, 1, 5], [2, 4, 0]⟩, 39)
    ∧ Solution.calculate_cost mlInit (calculate_distance mlCoords) = 38
    ∧ Solution.calculate_cost ⟨[3, 1, 5], [2, 4, 0]⟩ (calculate_distance mlCoords) = 39
    ∧ ¬ ((39 : Int) ≤ 38) := by decide

/-- C6 (counterexample): on the 8-node instance `regenCoords`, the first
MoveListSteepest iteration applies `InterRouteExchange 7 2`; afterwards
the vertex exchange of nodes `7` and `4` (positions 0 and 1 of cycle2)
is an improving move (delta `-3`) incident to the affected node `7`, yet
the maintained list `regenNext.move_list` does not contain it: the
regeneration step of the maintenance contract produces nothing. -/
theorem c6_regenerated_moves_missing :
    find_first_valid_move regenState.solution regenState.move_list 0
      = some (0, ⟨Move.InterRouteExchange 7 2, -13⟩)
    ∧ solve_step SearchVariant.MoveListSteepest NeighborhoodType.VertexExchange
        (calculate_distance regenCoords) (fun _ => []) 8 (fun _ l => l) regenState
      = StepResult.next regenNext
    ∧ evaluate_intra_route_vertex_exchange (calculate_distance regenCoords)
        regenNext.solution CycleId.Cycle2 0 1
      = some ⟨Move.IntraRouteVertexExchange 7 4 CycleId.Cycle2, -3⟩
    ∧ move_involves_nodes (Move.IntraRouteVertexExchange 7 4 CycleId.Cycle2)
        (identify_affected_nodes (Move.InterRouteExchange 7 2)) = true
    ∧ Move.IntraRouteVertexExchange 7 4 CycleId.Cycle2
        ∉ regenNext.move_list.map (fun em => em.move_type) := by decide

/-- C9: requesting nearest neighbors on a freshly loaded instance (before
`precompute_nearest_neighbors` has populated the lists) reaches the
panic branch, as does any out-of-range node id on any instance state. -/
theorem c9_nearest_neighbors_fail_fast (dim : Nat) (coords : List (Int × Int))
    (inst : TsplibInstance) (node_id : Nat) :
    isError ((TsplibInstance.load dim coords).get_nearest_neighbors node_id) = true
    ∧ (inst.dimension ≤ node_id → isError (inst.get_nearest_neighbors node_id) = true) := by
  constructor
  · cases dim with
    | zero => rfl
    | succ n => rfl
  · intro hnode
    unfold TsplibInstance.get_nearest_neighbors
    split <;> rfl

/-- Closed witness for `c9_nearest_neighbors_fail_fast`: a freshly loaded
3-node instance errors both before precomputation and on the
out-of-range node id 7. -/
theorem c9_nearest_neighbors_fail_fast_witness :
    isError ((TsplibInstance.load 3 [(0,0),(0,1),(1,0)]).get_nearest_neighbors 0) = true
    ∧ isError ((TsplibInstance.load 3 [(0,0),(0,1),(1,0)]).get_nearest_neighbors 7) = true :=
  ⟨(c9_nearest_neighbors_fail_fast 3 [(0,0),(0,1),(1,0)]
      (TsplibInstance.load 3 [(0,0),(0,1),(1,0)]) 0).1,
   (c9_nearest_neighbors_fail_fast 3 [(0,0),(0,1),(1,0)]
      (TsplibInstance.load 3 [(0,0),(0,1),(1,0)]) 7).2 (by decide)⟩

/-- Precomputing nearest neighbors never changes the instance dimension. -/
theorem precompute_dimension (inst : TsplibInstance) (k : Nat) :
    (inst.precompute_nearest_neighbors k).dimension = inst.dimension := by
  unfold TsplibInstance.precompute_nearest_neighbors
  split
  · rfl
  · split <;> rfl

/-- After `precompute_nearest_neighbors` with a valid `k`, node 0's stored
neighbor list is non-empty of length exactly `k` (each node has
`dimension - 1 ≥ k` candidate neighbors and keeps the first `k`). -/
theorem precompute_head_length (inst : TsplibInstance) (k : Nat)
    (hk : 0 < k) (hdim : k < inst.dimension) :
    ¬ ((inst.precompute_nearest_neighbors k).nearest_neighbors.getD 0 []).isEmpty = true
    ∧ ((inst.precompute_nearest_neighbors k).nearest_neighbors.getD 0 []).length = k := by
  have hguard : ¬ (k = 0 ∨ k ≥ inst.dimension) := by omega
  unfold TsplibInstance.precompute_nearest_neighbors
  rw [if_neg hguard]
  split
  · next hearly => exact hearly
  · next hnotearly =>
    obtain ⟨d, hd⟩ : ∃ d, inst.dimension = d + 1 := ⟨inst.dimension - 1, by omega⟩
    rw [hd, List.range_succ_eq_map]
    simp only [List.map_cons, List.getD_cons_zero]
    have hfl : ((0 :: (List.range d).map Nat.succ).filter (fun j => decide (0 ≠ j))).length
        = d := by
      rw [List.filter_cons_of_neg (by simp)]
      simp only [List.filter_map]
      rw [List.filter_eq_self.mpr (fun a _ => by simp [Function.comp])]
      rw [List.length_map, List.length_range]
    have hlen : ((((((0 :: (List.range d).map Nat.succ)).filter
          (fun j => decide (0 ≠ j))).map (fun j => (j, inst.distance 0 j))).mergeSort
            (fun a b => decide (a.2 ≤ b.2))).take k).length = k := by
      rw [List.length_take, List.length_mergeSort, List.length_map, hfl]
      omega
    constructor
    · intro hempty
      rw [List.isEmpty_iff] at hempty
      have hlz := congrArg List.length hempty
      rw [List.length_map, hlen] at hlz
      simp only [List.length_nil] at hlz
      omega
    · rw [List.length_map]
      exact hlen

/-- C10: `precompute_nearest_neighbors` is idempotent for a fixed valid
`k` (`0 < k < dimension`): the second call finds node 0's list already of
length `k` and returns early, leaving the instance exactly as the first
call left it. -/
theorem c10_precompute_idempotent (inst : TsplibInstance) (k : Nat)
    (hk : 0 < k) (hdim : k < inst.dimension) :
    (inst.precompute_nearest_neighbors k).precompute_nearest_neighbors k
      = inst.precompute_nearest_neighbors k := by
  have hhead := precompute_head_length inst k hk hdim
  have hdimeq := precompute_dimension inst k
  set inst1 := inst.precompute_nearest_neighbors k with hinst1
  have hguard : ¬ (k = 0 ∨ k ≥ inst1.dimension) := by
    rw [hdimeq]; omega
  unfold TsplibInstance.precompute_nearest_neighbors
  rw [if_neg hguard, if_pos hhead]

/-- Closed witness for `c10_precompute_idempotent` at a concrete 3-node
instance with `k = 1`. -/
theorem c10_precompute_idempotent_witness :
    ((TsplibInstance.load 3 [(0,0),(0,1),(5,5)]).precompute_nearest_neighbors
        1).precompute_nearest_neighbors 1
      = (TsplibInstance.load 3 [(0,0),(0,1),(5,5)]).precompute_nearest_neighbors 1 :=
  c10_precompute_idempotent (TsplibInstance.load 3 [(0,0),(0,1),(5,5)]) 1
    (by decide) (by decide)

end TwoCycle
